import Mathlib

/-! KeyCap: the key translation engine of `KeyCapLib`.

A shallow embedding of `src/KeyCapLib/KeyCapture.cpp` (the load of a
configuration file, the dispatch table it builds, the shutdown, the low level
keyboard hook and the input thread) and of the two intent functions of
`src/KeyCapLib/KeyCaptureUtil.cpp`.

Conventions of the embedding.

* A byte is a `Fin 256`.
* Pointers into the configuration block are natural numbers counted from the
  address `malloc` returned for the block, so the block itself starts at
  address `0` and `g_KeyTranslationEnd` is the size that was read.  Process
  memory is a total function from addresses to bytes: what lies past the end
  of the block is whatever the heap held before the load.
* A chain of `KeyTranslationListItem` nodes is the list of its `pTrans`
  pointers, in chain order (`pNext` is the tail of the list).
* Calls into the operating system are answered by an `OsAnswers` record, and
  the calls the code makes are collected in a list of `Effect`s.
-/

namespace KeyCap

/-- One byte of memory or of the configuration file. -/
abbrev Byte := Fin 256

/-- The enum `HOOK_RESULT` of `KeyCapture.cpp` (lines 35-42). -/
inductive HOOK_RESULT
  | HOOK_CREATION_SUCCESS
  | HOOK_CREATION_FAILURE
  | INPUT_MISSING
  | INPUT_ZERO
  | INPUT_BAD
  deriving DecidableEq, Repr

/-- The constant `HASH_TABLE_SIZE` (line 46). -/
def HASH_TABLE_SIZE : Nat := 256

/-- Modelled from the spec: the two byte `KeyDefinition` of `KeyCapture.h`,
which is not among the sources (`LoadAndCaptureFromFile` asserts
`2 == sizeof(KeyDefinition)`).  Following the file format of the spec it is a
virtual-key byte followed by one byte of flags. -/
structure KeyDefinition where
  nVkKey : Byte
  nFlags : Byte
  deriving DecidableEq, Repr

namespace KeyDefinition

/-- Modelled from the spec: the bit field `bAlt` of `KeyDefinition`; the spec
lists the bits of the flags byte in the order Alt, Control, Shift, DoNothing,
MouseOut, Delay, Toggle. -/
def bAlt (k : KeyDefinition) : Bool := k.nFlags.val.testBit 0

/-- Modelled from the spec: the bit field `bControl` of `KeyDefinition`. -/
def bControl (k : KeyDefinition) : Bool := k.nFlags.val.testBit 1

/-- Modelled from the spec: the bit field `bShift` of `KeyDefinition`. -/
def bShift (k : KeyDefinition) : Bool := k.nFlags.val.testBit 2

/-- Modelled from the spec: the bit field `bDoNothing` of `KeyDefinition`. -/
def bDoNothing (k : KeyDefinition) : Bool := k.nFlags.val.testBit 3

/-- Modelled from the spec: the bit field `bMouseOut` of `KeyDefinition`. -/
def bMouseOut (k : KeyDefinition) : Bool := k.nFlags.val.testBit 4

/-- Modelled from the spec: the bit field `bDelay` of `KeyDefinition`. -/
def bDelay (k : KeyDefinition) : Bool := k.nFlags.val.testBit 5

/-- Modelled from the spec: the bit field `bToggle` of `KeyDefinition`. -/
def bToggle (k : KeyDefinition) : Bool := k.nFlags.val.testBit 6

end KeyDefinition

/-- The size in bytes of a `KeyDefinition` (asserted at line 78). -/
def sizeofKeyDefinition : Nat := 2

/-- Modelled from the spec: the size of the header `KeyTranslation` of
`KeyCapture.h` (a `KeyDefinition kDef` followed by the count byte
`nKDefOutput`, packed). -/
def sizeofKeyTranslation : Nat := 3

/-- The `KeyDefinition` stored at address `p`. -/
def readKeyDefinition (memory : Nat → Byte) (p : Nat) : KeyDefinition :=
  { nVkKey := memory p, nFlags := memory (p + 1) }

/-- The field `pKey->kDef` of the `KeyTranslation` at address `pKey`. -/
def kDefAt (memory : Nat → Byte) (pKey : Nat) : KeyDefinition :=
  readKeyDefinition memory pKey

/-- The field `pKey->nKDefOutput` of the `KeyTranslation` at address `pKey`:
the byte after the two byte trigger. -/
def nKDefOutputAt (memory : Nat → Byte) (pKey : Nat) : Nat :=
  (memory (pKey + sizeofKeyDefinition)).val

/-- The pointer `&pKey->nKDefOutput + (1 + pKey->nKDefOutput * sizeof(KeyDefinition))`
of lines 165 and 320: the address right after the record at `pKey`. -/
def nextKey (memory : Nat → Byte) (pKey : Nat) : Nat :=
  (pKey + sizeofKeyDefinition) + (1 + nKDefOutputAt memory pKey * sizeofKeyDefinition)

/-- Memory after `bytes` have been stored from address `0` on. -/
def storeBytes (memory : Nat → Byte) (bytes : List Byte) : Nat → Byte :=
  fun a => match bytes[a]? with
    | some x => x
    | none => memory a

/-- The globals of `KeyCapture.cpp` (lines 62-66), the two toggle histories
the load wipes (lines 133-134), and process memory. -/
structure Engine where
  memory : Nat → Byte
  g_KeyTranslationTable : Nat → List Nat
  g_KeyTranslationHead : Option Nat
  g_KeyTranslationEnd : Option Nat
  g_hookMain : Option Nat
  g_MouseToggleHistory : Nat → Bool
  g_KeyToggleHistory : Nat → Bool

/-- The engine before any load: every global is `NULL`. -/
def Engine.initial (memory : Nat → Byte) : Engine :=
  { memory := memory
    g_KeyTranslationTable := fun _ => []
    g_KeyTranslationHead := none
    g_KeyTranslationEnd := none
    g_hookMain := none
    g_MouseToggleHistory := fun _ => false
    g_KeyToggleHistory := fun _ => false }

/-- Calls into the operating system and the C runtime that the engine makes. -/
inductive Effect
  | SetWindowsHookEx (result : Option Nat)
  | UnhookWindowsHookEx (hook : Nat)
  | freeHead (p : Nat)
  | freeItem (nIdx : Nat) (pTrans : Nat)
  deriving DecidableEq, Repr

/-- The `memset` of line 130: the `HASH_TABLE_SIZE` entries of the table are
set to `NULL`. -/
def clearTable (table : Nat → List Nat) : Nat → List Nat :=
  fun nIdx => if nIdx < HASH_TABLE_SIZE then [] else table nIdx

/-- The function `ShutdownCapture` (lines 202-241). -/
def ShutdownCapture (e : Engine) : Engine × List Effect :=
  let unhooked : List Effect :=
    match e.g_hookMain with
    | some h => [Effect.UnhookWindowsHookEx h]
    | none => []
  let freed : List Effect :=
    match e.g_KeyTranslationHead with
    | some p => [Effect.freeHead p]
    | none => []
  let items : List Effect :=
    (List.range HASH_TABLE_SIZE).foldr
      (fun nIdx rest => (e.g_KeyTranslationTable nIdx).map (Effect.freeItem nIdx) ++ rest) []
  ({ e with
      g_hookMain := none
      g_KeyTranslationHead := none
      g_KeyTranslationTable := clearTable e.g_KeyTranslationTable
      g_KeyTranslationEnd := none },
   unhooked ++ freed ++ items)

/-- Lines 147-164: a new `KeyTranslationListItem` for `pKey` is hung at the
end of the chain of bucket `nVkKey`. -/
def appendItem (table : Nat → List Nat) (nVkKey : Nat) (pKey : Nat) : Nat → List Nat :=
  fun nIdx =>
    if nIdx = nVkKey then
      match table nVkKey with
      | [] => [pKey]
      | item :: rest => (item :: rest) ++ [pKey]
    else table nIdx

/-- How the record loop of lines 139-176 is left. -/
inductive WalkExit
  | zeroCount
  | pastEnd
  | atEnd
  deriving DecidableEq, Repr

/-- What the record loop leaves behind: the way it was left, the table it
built, the addresses of the records it visited (in order) and the value of
`pKey` when it was left. -/
structure Walk where
  exit : WalkExit
  table : Nat → List Nat
  visited : List Nat
  pKey : Nat

/-- The loop `while(NULL != pKey)` of lines 139-176, with one unit of fuel per
iteration.  `pKey` is never `NULL` inside the block, so the loop is only left
through one of its three exits. -/
def walkLoop (memory : Nat → Byte) (pEnd : Nat) :
    Nat → Nat → (Nat → List Nat) → Option Walk
  | 0, _, _ => none
  | fuel + 1, pKey, table =>
    if nKDefOutputAt memory pKey = 0 then
      some { exit := WalkExit.zeroCount, table := table, visited := [pKey], pKey := pKey }
    else
      let table1 := appendItem table (kDefAt memory pKey).nVkKey.val pKey
      let pNext := nextKey memory pKey
      if pNext > pEnd then
        some { exit := WalkExit.pastEnd, table := table1, visited := [pKey], pKey := pNext }
      else if pNext = pEnd then
        some { exit := WalkExit.atEnd, table := table1, visited := [pKey], pKey := pNext }
      else
        match walkLoop memory pEnd fuel pNext table1 with
        | some w => some { w with visited := pKey :: w.visited }
        | none => none

/-- The answers of the operating system to the calls of one
`LoadAndCaptureFromFile`: `mbstowcs_s`, `GetFileAttributes`, `CreateFile`,
the bytes of the file, `ReadFile` and `SetWindowsHookEx`. -/
structure OsAnswers where
  nConvertedCount : Nat
  fileExists : Bool
  fileOpens : Bool
  fileBytes : List Byte
  readFileOk : Bool
  dwBytesRead : Nat
  hookResult : Option Nat

/-- The field `nFileSizeLow` of the file information: the low 32 bits of the
size of the file. -/
def OsAnswers.nFileSizeLow (os : OsAnswers) : Nat :=
  os.fileBytes.length % 4294967296

/-- The result of one `LoadAndCaptureFromFile`: the status returned, the
engine afterwards, the calls made, and what the record loop left behind (when
the load got as far as the loop). -/
structure LoadOutcome where
  status : HOOK_RESULT
  engine : Engine
  effects : List Effect
  walk : Option Walk

/-- Lines 103-121: the end pointer is cleared, and a file of non-zero size is
read into a fresh block; the end pointer is set when all of it was read. -/
def readFileIntoHead (e : Engine) (os : OsAnswers) : Engine :=
  let e1 := { e with g_KeyTranslationEnd := none }
  if os.nFileSizeLow ≠ 0 then
    let e2 := { e1 with
      g_KeyTranslationHead := some 0
      memory := storeBytes e1.memory ((os.fileBytes.take os.nFileSizeLow).take os.dwBytesRead) }
    if os.readFileOk then
      if os.dwBytesRead = os.nFileSizeLow then
        { e2 with g_KeyTranslationEnd := some (0 + os.nFileSizeLow) }
      else e2
    else e2
  else e1

/-- Lines 178-196, after the record loop. The handle `SetWindowsHookEx`
returns is stored in a local variable that is also called `g_hookMain`
(line 181), so the global of that name keeps its value. -/
def finishLoad (e : Engine) (os : OsAnswers) (bValidTranslationSet : Bool)
    (walk : Option Walk) : LoadOutcome :=
  if bValidTranslationSet then
    match os.hookResult with
    | none =>
      let down := ShutdownCapture e
      { status := HOOK_RESULT.HOOK_CREATION_FAILURE, engine := down.1,
        effects := Effect.SetWindowsHookEx none :: down.2, walk := walk }
    | some h =>
      { status := HOOK_RESULT.HOOK_CREATION_SUCCESS, engine := e,
        effects := [Effect.SetWindowsHookEx (some h)], walk := walk }
  else
    let down := ShutdownCapture e
    { status := HOOK_RESULT.INPUT_BAD, engine := down.1, effects := down.2, walk := walk }

/-- Lines 141-145, 166-175 and 178-196: what the load returns once the record
loop has been left with `w`. -/
def afterWalk (e : Engine) (os : OsAnswers) (w : Walk) : LoadOutcome :=
  let e3 := { e with g_KeyTranslationTable := w.table }
  match w.exit with
  | WalkExit.zeroCount =>
    let down := ShutdownCapture e3
    { status := HOOK_RESULT.INPUT_BAD, engine := down.1, effects := down.2, walk := some w }
  | WalkExit.pastEnd =>
    let down := ShutdownCapture e3
    { status := HOOK_RESULT.INPUT_BAD, engine := down.1, effects := down.2, walk := some w }
  | WalkExit.atEnd => finishLoad e3 os true (some w)

/-- Lines 130-134: the table and the two histories are wiped. -/
def wipeTables (e : Engine) : Engine :=
  { e with
    g_KeyTranslationTable := clearTable e.g_KeyTranslationTable
    g_MouseToggleHistory := fun _ => false
    g_KeyToggleHistory := fun _ => false }

/-- The function `LoadAndCaptureFromFile` (lines 76-197).  The record loop is
given one unit of fuel per byte of the block; `none` is returned only if that
fuel runs out. -/
def LoadAndCaptureFromFile (e : Engine) (os : OsAnswers) : Option LoadOutcome :=
  if os.nConvertedCount = 0 then
    some { status := HOOK_RESULT.INPUT_MISSING, engine := e, effects := [], walk := none }
  else if os.fileExists = false then
    some { status := HOOK_RESULT.INPUT_MISSING, engine := e, effects := [], walk := none }
  else if os.fileOpens = false then
    some { status := HOOK_RESULT.INPUT_BAD, engine := e, effects := [], walk := none }
  else
    let e1 := readFileIntoHead e os
    match e1.g_KeyTranslationEnd with
    | none =>
      let down := ShutdownCapture e1
      some { status := HOOK_RESULT.INPUT_BAD, engine := down.1, effects := down.2,
             walk := none }
    | some pEnd =>
      let e2 := wipeTables e1
      match e2.g_KeyTranslationHead with
      | none => some (finishLoad e2 os false none)
      | some pHead =>
        match walkLoop e2.memory pEnd pEnd pHead e2.g_KeyTranslationTable with
        | none => none
        | some w => some (afterWalk e2 os w)

/-- The part of `KBDLLHOOKSTRUCT` the hook reads. -/
structure KBDLLHOOKSTRUCT where
  vkCode : Nat
  flags : Nat

/-- The Win32 constant `HC_ACTION`. -/
def HC_ACTION : Int := 0

/-- The Win32 constant `WM_KEYDOWN`. -/
def WM_KEYDOWN : Nat := 0x0100

/-- The Win32 constant `WM_KEYUP`. -/
def WM_KEYUP : Nat := 0x0101

/-- The Win32 constant `WM_SYSKEYDOWN`. -/
def WM_SYSKEYDOWN : Nat := 0x0104

/-- The Win32 constant `WM_SYSKEYUP`. -/
def WM_SYSKEYUP : Nat := 0x0105

/-- The Win32 constant `LLKHF_INJECTED`. -/
def LLKHF_INJECTED : Nat := 0x10

/-- The three `GetAsyncKeyState` answers of lines 256-258, each already
masked with `0x8000` and compared with zero. -/
structure KeyState where
  bAlt : Bool
  bControl : Bool
  bShift : Bool
  deriving DecidableEq, Repr

/-- What `LowLevelKeyboardProc` returns: `1`, or the value of the call to
`CallNextHookEx` it makes. -/
inductive HookReturn
  | one
  | CallNextHookEx
  deriving DecidableEq, Repr

/-- One call of `LowLevelKeyboardProc`: the indices at which the table was
read, the records `SendInputThread` was started on, and what is returned. -/
structure HookOutcome where
  lookups : List Nat
  threads : List Nat
  ret : HookReturn
  deriving DecidableEq, Repr

/-- The scan of lines 271-284 (key down): the record the thread is created
for, if the scan finds one. -/
def scanKeyDown (memory : Nat → Byte) (bAlt bControl bShift : Bool) : List Nat → Option Nat
  | [] => none
  | pTrans :: pNext =>
    let pKeyDef := kDefAt memory pTrans
    if bAlt = pKeyDef.bAlt ∧ bControl = pKeyDef.bControl ∧ bShift = pKeyDef.bShift then
      some pTrans
    else scanKeyDown memory bAlt bControl bShift pNext

/-- The scan of lines 291-303 (key up): the value of `bSentInput` after it. -/
def scanKeyUp (memory : Nat → Byte) (bAlt bControl bShift : Bool) : List Nat → Bool
  | [] => false
  | pTrans :: pNext =>
    let pKeyDef := kDefAt memory pTrans
    if bAlt = pKeyDef.bAlt ∧ bControl = pKeyDef.bControl ∧ bShift = pKeyDef.bShift then
      true
    else scanKeyUp memory bAlt bControl bShift pNext

/-- The function `LowLevelKeyboardProc` (lines 250-311). -/
def LowLevelKeyboardProc (e : Engine) (keys : KeyState) (nCode : Int) (wParam : Nat)
    (pHook : KBDLLHOOKSTRUCT) : HookOutcome :=
  if pHook.flags &&& LLKHF_INJECTED = 0 then
    if HC_ACTION = nCode then
      if wParam = WM_KEYDOWN ∨ wParam = WM_SYSKEYDOWN then
        match scanKeyDown e.memory keys.bAlt keys.bControl keys.bShift
            (e.g_KeyTranslationTable pHook.vkCode) with
        | some pTrans =>
          { lookups := [pHook.vkCode], threads := [pTrans], ret := HookReturn.one }
        | none =>
          { lookups := [pHook.vkCode], threads := [], ret := HookReturn.CallNextHookEx }
      else if wParam = WM_KEYUP ∨ wParam = WM_SYSKEYUP then
        if scanKeyUp e.memory keys.bAlt keys.bControl keys.bShift
            (e.g_KeyTranslationTable pHook.vkCode) then
          { lookups := [pHook.vkCode], threads := [], ret := HookReturn.one }
        else
          { lookups := [pHook.vkCode], threads := [], ret := HookReturn.CallNextHookEx }
      else { lookups := [], threads := [], ret := HookReturn.CallNextHookEx }
    else { lookups := [], threads := [], ret := HookReturn.CallNextHookEx }
  else { lookups := [], threads := [], ret := HookReturn.CallNextHookEx }

/-- The output definitions `SendInputThread` finds behind a record header
(lines 319-320 and 330-348): `count` definitions of two bytes each, read from
`pKeyDef` on. -/
def readOutputs (memory : Nat → Byte) : Nat → Nat → List KeyDefinition
  | 0, _ => []
  | count + 1, pKeyDef =>
    readKeyDefinition memory pKeyDef ::
      readOutputs memory count (pKeyDef + sizeofKeyDefinition)

/-- Modelled from the spec: a Translation Record, a trigger chord with its
ordered output actions. -/
structure TranslationRecord where
  trigger : KeyDefinition
  outputs : List KeyDefinition
  deriving DecidableEq, Repr

/-- The record found in memory at `pItem`: its trigger, and the outputs
`SendInputThread` walks over (from `pItem + sizeof(KeyTranslation)` up to the
end of the record). -/
def recordAt (memory : Nat → Byte) (pItem : Nat) : TranslationRecord :=
  { trigger := kDefAt memory pItem
    outputs := readOutputs memory (nKDefOutputAt memory pItem) (pItem + sizeofKeyTranslation) }

/-- Modelled from the spec: the encoding of one output action or trigger
chord, the virtual-key byte and the flags byte (the encoder is the
configuration tool, which is not among the sources). -/
def encodeKeyDefinition (k : KeyDefinition) : List Byte := [k.nVkKey, k.nFlags]

/-- Modelled from the spec: the encoding of a list of output actions. -/
def encodeOutputs : List KeyDefinition → List Byte
  | [] => []
  | k :: ks => encodeKeyDefinition k ++ encodeOutputs ks

/-- Modelled from the spec: the encoding of one record,
`[TriggerChord][outputCount][OutputAction x outputCount]`. -/
def encodeRecord (r : TranslationRecord) : List Byte :=
  encodeKeyDefinition r.trigger ++
    (⟨r.outputs.length % 256, Nat.mod_lt _ (by decide)⟩ : Byte) :: encodeOutputs r.outputs

/-- Modelled from the spec: a configuration file, the flat concatenation of
its records. -/
def encodeRecords : List TranslationRecord → List Byte
  | [] => []
  | r :: rs => encodeRecord r ++ encodeRecords rs

/-- The records of a file with the offset each one starts at, the first one
starting at `o`. -/
def layout (o : Nat) : List TranslationRecord → List (Nat × TranslationRecord)
  | [] => []
  | r :: rs => (o, r) :: layout (o + (encodeRecord r).length) rs

/-- The offsets at which the records of a file start. -/
def startOffsets (o : Nat) (rs : List TranslationRecord) : List Nat :=
  (layout o rs).map Prod.fst

/-- A record the format can hold: between 1 and 255 output actions. -/
def TranslationRecord.wellFormed (r : TranslationRecord) : Prop :=
  1 ≤ r.outputs.length ∧ r.outputs.length ≤ 255

instance (r : TranslationRecord) : Decidable r.wellFormed := by
  unfold TranslationRecord.wellFormed; infer_instance

/-- The operating system hands the whole of the buffer `b` to the load: the
path converts, the file exists and opens, its bytes are `b` (fewer than
`2^32`) and `ReadFile` reads all of them. -/
def OsAnswers.delivers (os : OsAnswers) (b : List Byte) : Prop :=
  os.nConvertedCount ≠ 0 ∧ os.fileExists = true ∧ os.fileOpens = true ∧
    os.fileBytes = b ∧ b.length < 4294967296 ∧ os.readFileOk = true ∧
    os.dwBytesRead = b.length

instance (os : OsAnswers) (b : List Byte) : Decidable (os.delivers b) := by
  unfold OsAnswers.delivers; infer_instance

/-- The answers of an operating system that hands `b` to the load and answers
`SetWindowsHookEx` with `hook`. -/
def OsAnswers.ofBuffer (b : List Byte) (hook : Option Nat) : OsAnswers :=
  { nConvertedCount := 1, fileExists := true, fileOpens := true, fileBytes := b,
    readFileOk := true, dwBytesRead := b.length, hookResult := hook }

/-- The record walk in the words of the specification: `Lands memory pEnd p q`
says that the walk, standing at offset `p`, lands on offset `q` after some
steps, where a step leaves a record at an offset `o` before the end whose
count byte `n` (the byte after the two byte trigger chord) is not zero, and
moves to `o + 3 + 2 * n`. -/
inductive Lands (memory : Nat → Byte) (pEnd : Nat) : Nat → Nat → Prop
  | here (p : Nat) : Lands memory pEnd p p
  | step (o q : Nat) : o < pEnd → (memory (o + 2)).val ≠ 0 →
      Lands memory pEnd (o + 3 + 2 * (memory (o + 2)).val) q → Lands memory pEnd o q

/-- The load passed validation: it went on to `SetWindowsHookEx` and returned
one of the two statuses of that call. -/
def HOOK_RESULT.passedValidation (r : HOOK_RESULT) : Prop :=
  r = HOOK_RESULT.HOOK_CREATION_SUCCESS ∨ r = HOOK_RESULT.HOOK_CREATION_FAILURE

instance (r : HOOK_RESULT) : Decidable r.passedValidation := by
  unfold HOOK_RESULT.passedValidation; infer_instance

/-- The engine the record loop of a load of the buffer `b` runs in. -/
def Engine.loading (e : Engine) (b : List Byte) : Engine :=
  { e with
    memory := storeBytes e.memory b
    g_KeyTranslationHead := some 0
    g_KeyTranslationEnd := some b.length
    g_KeyTranslationTable := clearTable e.g_KeyTranslationTable
    g_MouseToggleHistory := fun _ => false
    g_KeyToggleHistory := fun _ => false }

/-- The bytes `bytes` stand in memory from address `o` on, as far as the
addresses below `lim` go. -/
def Holds (memory : Nat → Byte) (lim : Nat) (o : Nat) (bytes : List Byte) : Prop :=
  ∀ i x, o + i < lim → bytes[i]? = some x → memory (o + i) = x

/-- The chain a load of the records `rs` (the first one at offset `o`) adds to
bucket `v`: the offsets of the records whose trigger has key code `v`, in file
order. -/
def bucketOf (o : Nat) (rs : List TranslationRecord) (v : Nat) : List Nat :=
  ((layout o rs).filter (fun x => decide (x.2.trigger.nVkKey.val = v))).map Prod.fst

/-- The chord stored in the record at `pTrans` equals the live modifier state
on all three flags (the test of lines 275-277 and 295-297). -/
def chordMatches (memory : Nat → Byte) (keys : KeyState) (pTrans : Nat) : Prop :=
  keys.bAlt = (kDefAt memory pTrans).bAlt ∧ keys.bControl = (kDefAt memory pTrans).bControl ∧
    keys.bShift = (kDefAt memory pTrans).bShift

instance (memory : Nat → Byte) (keys : KeyState) (pTrans : Nat) :
    Decidable (chordMatches memory keys pTrans) := by
  unfold chordMatches; infer_instance

/-- The trigger chord of the record `r` is exactly the key code `vk` with the
modifier state `keys`. -/
def TranslationRecord.hasChord (r : TranslationRecord) (vk : Nat) (keys : KeyState) : Prop :=
  r.trigger.nVkKey.val = vk ∧ r.trigger.bAlt = keys.bAlt ∧
    r.trigger.bControl = keys.bControl ∧ r.trigger.bShift = keys.bShift

instance (r : TranslationRecord) (vk : Nat) (keys : KeyState) : Decidable (r.hasChord vk keys) := by
  unfold TranslationRecord.hasChord; infer_instance

/-- The calls `SendInputThread` makes, each with the `KeyDefinition` its
pointer argument points at (`Sleep` with its number of milliseconds). -/
inductive InputEffect
  | SendTriggerEndInputKeys (pTriggerDefinition : KeyDefinition)
  | SendInputMouse (pKeyDef : KeyDefinition)
  | Sleep (dwMilliseconds : Nat)
  | SendInputKeys (pKeyDef : KeyDefinition)
  deriving DecidableEq, Repr

/-- The loop `while(pKeyDef < pEndDef)` of lines 330-348, with one unit of
fuel per test of the loop condition. -/
def sendLoop (memory : Nat → Byte) (pEndDef : Nat) : Nat → Nat → Option (List InputEffect)
  | 0, _ => none
  | fuel + 1, pKeyDef =>
    if pKeyDef < pEndDef then
      let d := readKeyDefinition memory pKeyDef
      let sent : InputEffect :=
        if d.bMouseOut then InputEffect.SendInputMouse d
        else if d.bDelay then InputEffect.Sleep (1000 * d.nVkKey.val)
        else InputEffect.SendInputKeys d
      match sendLoop memory pEndDef fuel (pKeyDef + sizeofKeyDefinition) with
      | some rest => some (sent :: rest)
      | none => none
    else some []

/-- The function `SendInputThread` (lines 316-376) on the record at `pItem`:
the calls it makes, in order.  The loop gets one unit of fuel per output the
record declares and one for the last test; `none` is returned only if that
fuel runs out. -/
def SendInputThread (memory : Nat → Byte) (pItem : Nat) : Option (List InputEffect) :=
  let pKeyDef := pItem + sizeofKeyTranslation
  let pEndDef := nextKey memory pItem
  if (readKeyDefinition memory pKeyDef).bDoNothing then some []
  else
    match sendLoop memory pEndDef (nKDefOutputAt memory pItem + 1) pKeyDef with
    | some rest => some (InputEffect.SendTriggerEndInputKeys (kDefAt memory pItem) :: rest)
    | none => none

/-- Modelled from the spec: the flags of an output action in the richer
format, `OutputFlag` of `keycapturestructs.h`, which is not among the sources
(the fields are the ones `GetOutputConfigDescription` prints). -/
structure OutputFlag where
  bAlt : Bool
  bControl : Bool
  bShift : Bool
  bDoNothing : Bool
  bMouseOut : Bool
  bDelay : Bool
  bToggle : Bool
  bDown : Bool
  bUp : Bool
  deriving DecidableEq, Repr

/-- Modelled from the spec: `OutputConfig` of `keycapturestructs.h`, a virtual
key and its flags. -/
structure OutputConfig where
  virtualKey : Nat
  outputFlag : OutputFlag
  deriving DecidableEq, Repr

/-- Modelled from the spec: the part of `RemapEntry` of `keycapturestructs.h`
the two functions read, the toggle state of the entry. -/
structure RemapEntry where
  bToggled : Bool
  deriving DecidableEq, Repr

/-- The function `IsButtonDownRequired` (`KeyCaptureUtil.cpp`, lines 28-38). -/
def IsButtonDownRequired (pRemapEntry : RemapEntry) (pKeyDef : OutputConfig) : Bool :=
  if pKeyDef.outputFlag.bToggle then
    !pRemapEntry.bToggled
  else
    pKeyDef.outputFlag.bDown

/-- The function `IsButtonUpRequired` (`KeyCaptureUtil.cpp`, lines 40-50). -/
def IsButtonUpRequired (pRemapEntry : RemapEntry) (pKeyDef : OutputConfig) : Bool :=
  if pKeyDef.outputFlag.bToggle then
    pRemapEntry.bToggled
  else
    pKeyDef.outputFlag.bUp

/-- The addresses one iteration of the record loop reads at the record
`pKey`: the count byte `pKey->nKDefOutput` (line 141) and, when the count is
not zero, the key code byte `pKey->kDef.nVkKey` (line 147). -/
def readsAt (memory : Nat → Byte) (pKey : Nat) : List Nat :=
  if nKDefOutputAt memory pKey = 0 then [pKey + sizeofKeyDefinition]
  else [pKey + sizeofKeyDefinition, pKey]

/-- The addresses the record loop read, given the records it visited. -/
def readsOf (memory : Nat → Byte) : List Nat → List Nat
  | [] => []
  | pKey :: rest => readsAt memory pKey ++ readsOf memory rest

/-- The call the input thread makes for one output action (spec 4.4, step 3):
the mouse call for a mouse action, otherwise a sleep of the encoded number of
seconds for a delay action, otherwise the key call. -/
def outputCall (k : KeyDefinition) : InputEffect :=
  if k.bMouseOut = true then InputEffect.SendInputMouse k
  else if k.bDelay = true then InputEffect.Sleep (1000 * k.nVkKey.val)
  else InputEffect.SendInputKeys k

/-! ## Memory and the record loop -/

theorem storeBytes_of_getElem? (memory : Nat → Byte) (bytes : List Byte) (a : Nat) (x : Byte)
    (h : bytes[a]? = some x) : storeBytes memory bytes a = x := by
  simp [storeBytes, h]

theorem storeBytes_of_le (memory : Nat → Byte) (bytes : List Byte) (a : Nat)
    (h : bytes.length ≤ a) : storeBytes memory bytes a = memory a := by
  have h1 : bytes[a]? = none := List.getElem?_eq_none h
  simp [storeBytes, h1]

/-- Every iteration of the record loop that goes on moves `pKey` forward by at
least five bytes, so one unit of fuel for every five bytes is enough. -/
theorem walkLoop_isSome (memory : Nat → Byte) (pEnd : Nat) :
    ∀ (fuel pKey : Nat) (table : Nat → List Nat), pKey < pEnd → pEnd - pKey ≤ 5 * fuel →
      ∃ w, walkLoop memory pEnd fuel pKey table = some w := by
  intro fuel
  induction fuel with
  | zero => intro pKey table h1 h2; omega
  | succ fuel ih =>
    intro pKey table h1 h2
    unfold walkLoop
    by_cases hz : nKDefOutputAt memory pKey = 0
    · simp [hz]
    · simp only [hz, if_false]
      by_cases hgt : nextKey memory pKey > pEnd
      · simp [hgt]
      · simp only [hgt, if_false]
        by_cases heq : nextKey memory pKey = pEnd
        · simp [heq]
        · simp only [heq, if_false]
          have hn : nextKey memory pKey = pKey + 3 + 2 * nKDefOutputAt memory pKey := by
            simp only [nextKey, sizeofKeyDefinition]; omega
          obtain ⟨w, hw⟩ := ih (nextKey memory pKey)
            (appendItem table (kDefAt memory pKey).nVkKey.val pKey) (by omega) (by omega)
          rw [hw]
          exact ⟨_, rfl⟩

/-- The load of a non-empty buffer the operating system delivers whole runs
the record loop over the stored buffer, from address `0`, on the wiped table. -/
theorem load_of_delivers (e : Engine) (os : OsAnswers) (b : List Byte)
    (hd : os.delivers b) (hb : b ≠ []) :
    ∃ w, walkLoop (storeBytes e.memory b) b.length b.length 0
          (clearTable e.g_KeyTranslationTable) = some w ∧
      LoadAndCaptureFromFile e os = some (afterWalk (e.loading b) os w) := by
  obtain ⟨h1, h2, h3, h4, h5, h6, h7⟩ := hd
  have hpos : 0 < b.length := List.length_pos.mpr hb
  obtain ⟨w, hw⟩ := walkLoop_isSome (storeBytes e.memory b) b.length b.length 0
    (clearTable e.g_KeyTranslationTable) hpos (by omega)
  refine ⟨w, hw, ?_⟩
  have hsz : os.nFileSizeLow = b.length := by
    simp only [OsAnswers.nFileSizeLow, h4]; omega
  have hne : os.nFileSizeLow ≠ 0 := by omega
  have hread : readFileIntoHead e os =
      { e with
        memory := storeBytes e.memory b
        g_KeyTranslationHead := some 0
        g_KeyTranslationEnd := some b.length } := by
    simp [readFileIntoHead, h6, h7, hsz, h4, hb]
  simp only [LoadAndCaptureFromFile, h1, h2, h3, if_false, hread, wipeTables, Engine.loading]
  simp [hw]

theorem nextKey_eq (memory : Nat → Byte) (pKey : Nat) :
    nextKey memory pKey = pKey + 3 + 2 * (memory (pKey + 2)).val := by
  simp only [nextKey, nKDefOutputAt, sizeofKeyDefinition]; omega

theorem Lands.le {memory : Nat → Byte} {pEnd p q : Nat} (h : Lands memory pEnd p q) :
    p ≤ q := by
  induction h with
  | here p => exact Nat.le_refl p
  | step o q _ _ _ ih => omega

theorem Lands.cases_head {memory : Nat → Byte} {pEnd p q : Nat} (h : Lands memory pEnd p q) :
    p = q ∨ (p < pEnd ∧ (memory (p + 2)).val ≠ 0 ∧
      Lands memory pEnd (p + 3 + 2 * (memory (p + 2)).val) q) := by
  cases h with
  | here => exact Or.inl rfl
  | step _ _ h1 h2 h3 => exact Or.inr ⟨h1, h2, h3⟩

/-- The three exits of the record loop, in terms of the offsets the walk
lands on. -/
theorem walkLoop_exit (memory : Nat → Byte) (pEnd : Nat) :
    ∀ (fuel pKey : Nat) (table : Nat → List Nat) (w : Walk), pKey < pEnd →
      walkLoop memory pEnd fuel pKey table = some w →
      (w.exit = WalkExit.atEnd ↔ Lands memory pEnd pKey pEnd) ∧
      ((∃ q, pEnd < q ∧ Lands memory pEnd pKey q) → w.exit = WalkExit.pastEnd) ∧
      ((∃ q, q < pEnd ∧ Lands memory pEnd pKey q ∧ (memory (q + 2)).val = 0) →
        w.exit = WalkExit.zeroCount) := by
  intro fuel
  induction fuel with
  | zero => intro pKey table w _ h; simp [walkLoop] at h
  | succ fuel ih =>
    intro pKey table w hlt h
    have hn := nextKey_eq memory pKey
    unfold walkLoop at h
    by_cases hz : nKDefOutputAt memory pKey = 0
    · simp only [hz, if_true, Option.some.injEq] at h
      have hz2 : (memory (pKey + 2)).val = 0 := hz
      subst h
      refine ⟨⟨fun hx => by simp at hx, fun hl => ?_⟩, fun ⟨q, hq, hl⟩ => ?_, fun _ => rfl⟩
      · rcases hl.cases_head with h1 | ⟨_, h2, _⟩
        · omega
        · exact absurd hz2 h2
      · rcases hl.cases_head with h1 | ⟨_, h2, _⟩
        · omega
        · exact absurd hz2 h2
    · have hz2 : (memory (pKey + 2)).val ≠ 0 := hz
      simp only [hz, if_false] at h
      by_cases hgt : nextKey memory pKey > pEnd
      · simp only [hgt, if_true, Option.some.injEq] at h
        subst h
        refine ⟨⟨fun hx => by simp at hx, fun hl => ?_⟩, fun _ => rfl, fun ⟨q, hq, hl, hq0⟩ => ?_⟩
        · rcases hl.cases_head with h1 | ⟨_, _, h3⟩
          · omega
          · have := h3.le; omega
        · rcases hl.cases_head with h1 | ⟨_, _, h3⟩
          · subst h1; exact absurd hq0 hz2
          · have := h3.le; omega
      · simp only [hgt, if_false] at h
        by_cases heq : nextKey memory pKey = pEnd
        · simp only [heq, if_true, Option.some.injEq] at h
          subst h
          refine ⟨⟨fun _ => ?_, fun _ => rfl⟩, fun ⟨q, hq, hl⟩ => ?_, fun ⟨q, hq, hl, hq0⟩ => ?_⟩
          · refine Lands.step pKey pEnd hlt hz2 ?_
            rw [← hn, heq]; exact Lands.here pEnd
          · rcases hl.cases_head with h1 | ⟨_, _, h3⟩
            · omega
            · rw [← hn, heq] at h3
              rcases h3.cases_head with h4 | ⟨h5, _, _⟩ <;> omega
          · rcases hl.cases_head with h1 | ⟨_, _, h3⟩
            · subst h1; exact absurd hq0 hz2
            · have := h3.le; omega
        · simp only [heq, if_false] at h
          have hlt2 : nextKey memory pKey < pEnd := by omega
          cases hrec : walkLoop memory pEnd fuel (nextKey memory pKey)
              (appendItem table (kDefAt memory pKey).nVkKey.val pKey) with
          | none => simp [hrec] at h
          | some w1 =>
            simp only [hrec, Option.some.injEq] at h
            subst h
            obtain ⟨i1, i2, i3⟩ := ih _ _ w1 hlt2 hrec
            refine ⟨⟨fun hx => ?_, fun hl => ?_⟩, fun ⟨q, hq, hl⟩ => ?_, fun ⟨q, hq, hl, hq0⟩ => ?_⟩
            · refine Lands.step pKey pEnd hlt hz2 ?_
              rw [← hn]; exact i1.mp hx
            · rcases hl.cases_head with h1 | ⟨_, _, h3⟩
              · omega
              · rw [← hn] at h3; exact i1.mpr h3
            · rcases hl.cases_head with h1 | ⟨_, _, h3⟩
              · omega
              · rw [← hn] at h3; exact i2 ⟨q, hq, h3⟩
            · rcases hl.cases_head with h1 | ⟨_, _, h3⟩
              · subst h1; exact absurd hq0 hz2
              · rw [← hn] at h3; exact i3 ⟨q, hq, h3, hq0⟩

theorem shutdown_items_no_hook (table : Nat → List Nat) (r : Option Nat) (l : List Nat) :
    Effect.SetWindowsHookEx r ∉
      l.foldr (fun nIdx rest => (table nIdx).map (Effect.freeItem nIdx) ++ rest) [] := by
  induction l with
  | nil => simp
  | cons a l ih =>
    simp only [List.foldr_cons, List.mem_append, List.mem_map, not_or]
    refine ⟨?_, ih⟩
    rintro ⟨_, _, hx⟩
    cases hx

/-- The function `ShutdownCapture` never calls `SetWindowsHookEx`. -/
theorem ShutdownCapture_no_hook (e : Engine) (r : Option Nat) :
    Effect.SetWindowsHookEx r ∉ (ShutdownCapture e).2 := by
  simp only [ShutdownCapture, List.mem_append, not_or]
  refine ⟨⟨?_, ?_⟩, shutdown_items_no_hook _ r _⟩
  · cases e.g_hookMain <;> simp
  · cases e.g_KeyTranslationHead <;> simp

/-- What the load returns when the record loop was left at the end of the
block: validation passed, the hook is asked for, and the table stays. -/
theorem afterWalk_atEnd (e : Engine) (os : OsAnswers) (w : Walk)
    (h : w.exit = WalkExit.atEnd) :
    (afterWalk e os w).status.passedValidation ∧
    (afterWalk e os w).walk = some w ∧
    (∀ hook, os.hookResult = some hook →
      (afterWalk e os w).status = HOOK_RESULT.HOOK_CREATION_SUCCESS ∧
      (afterWalk e os w).engine = { e with g_KeyTranslationTable := w.table } ∧
      (afterWalk e os w).effects = [Effect.SetWindowsHookEx (some hook)]) ∧
    (os.hookResult = none →
      (afterWalk e os w).status = HOOK_RESULT.HOOK_CREATION_FAILURE) := by
  simp only [afterWalk, h, finishLoad, if_true, HOOK_RESULT.passedValidation]
  cases hh : os.hookResult <;> simp

/-- What the load returns when the record loop was left in one of the two
other ways: `INPUT_BAD`, after a shutdown, without a call of
`SetWindowsHookEx`. -/
theorem afterWalk_not_atEnd (e : Engine) (os : OsAnswers) (w : Walk)
    (h : w.exit ≠ WalkExit.atEnd) :
    (afterWalk e os w).status = HOOK_RESULT.INPUT_BAD ∧
    (afterWalk e os w).walk = some w ∧
    (afterWalk e os w).engine =
      (ShutdownCapture { e with g_KeyTranslationTable := w.table }).1 ∧
    ∀ r, Effect.SetWindowsHookEx r ∉ (afterWalk e os w).effects := by
  cases hx : w.exit with
  | atEnd => exact absurd hx h
  | zeroCount =>
    simp only [afterWalk, hx, true_and]
    exact fun r => ShutdownCapture_no_hook _ r
  | pastEnd =>
    simp only [afterWalk, hx, true_and]
    exact fun r => ShutdownCapture_no_hook _ r

/-! ## Encoded records in memory -/

theorem Holds.left {memory : Nat → Byte} {lim o : Nat} {a b : List Byte}
    (h : Holds memory lim o (a ++ b)) : Holds memory lim o a := by
  intro i x hi hx
  have hlt : i < a.length := by
    by_contra hc
    rw [List.getElem?_eq_none (by omega)] at hx
    cases hx
  exact h i x hi (by rw [List.getElem?_append_left hlt]; exact hx)

theorem Holds.right {memory : Nat → Byte} {lim o : Nat} {a b : List Byte}
    (h : Holds memory lim o (a ++ b)) : Holds memory lim (o + a.length) b := by
  intro i x hi hx
  have := h (a.length + i) x (by omega)
    (by rw [List.getElem?_append_right (by omega)]; simpa using hx)
  rw [← this]; congr 1; omega

theorem Holds.mono {memory : Nat → Byte} {lim lim2 o : Nat} {a : List Byte}
    (h : Holds memory lim o a) (hle : lim2 ≤ lim) : Holds memory lim2 o a :=
  fun i x hi hx => h i x (by omega) hx

theorem holds_storeBytes (memory : Nat → Byte) (b : List Byte) (lim : Nat) :
    Holds (storeBytes memory b) lim 0 b := by
  intro i x _ hx
  rw [Nat.zero_add]
  exact storeBytes_of_getElem? memory b i x hx

theorem holds_storeBytes_take (memory : Nat → Byte) (b : List Byte) (k : Nat) :
    Holds (storeBytes memory (b.take k)) k 0 b := by
  intro i x hi hx
  rw [Nat.zero_add] at hi ⊢
  apply storeBytes_of_getElem?
  rw [List.getElem?_take_of_lt hi]; exact hx

theorem encodeOutputs_length (ks : List KeyDefinition) :
    (encodeOutputs ks).length = 2 * ks.length := by
  induction ks with
  | nil => rfl
  | cons k ks ih => simp only [encodeOutputs, encodeKeyDefinition, List.length_append,
      List.length_cons, List.length_nil, ih]; omega

theorem encodeRecord_length (r : TranslationRecord) :
    (encodeRecord r).length = 3 + 2 * r.outputs.length := by
  simp only [encodeRecord, encodeKeyDefinition, List.length_append, List.length_cons,
    List.length_nil, encodeOutputs_length]; omega

/-- The header of an encoded record, read back through the pointers of the
record loop, as far as it lies below `lim`. -/
theorem header_of_holds {memory : Nat → Byte} {lim o : Nat} {r : TranslationRecord}
    {rest : List Byte} (h : Holds memory lim o (encodeRecord r ++ rest))
    (hwf : r.wellFormed) :
    (o + 1 < lim → kDefAt memory o = r.trigger) ∧
    (o < lim → (kDefAt memory o).nVkKey = r.trigger.nVkKey) ∧
    (o + 2 < lim → (memory (o + 2)).val = r.outputs.length) := by
  have h0 : ∀ x, (encodeRecord r ++ rest)[0]? = some x → o < lim → memory o = x :=
    fun x hx hl => h 0 x (by omega) hx
  have h1 : ∀ x, (encodeRecord r ++ rest)[1]? = some x → o + 1 < lim → memory (o + 1) = x :=
    fun x hx hl => h 1 x (by omega) hx
  have h2 : ∀ x, (encodeRecord r ++ rest)[2]? = some x → o + 2 < lim → memory (o + 2) = x :=
    fun x hx hl => h 2 x (by omega) hx
  simp only [encodeRecord, encodeKeyDefinition, List.cons_append, List.nil_append,
    List.getElem?_cons_zero, List.getElem?_cons_succ, Option.some.injEq, forall_eq'] at h0 h1 h2
  refine ⟨fun hl => ?_, fun hl => ?_, fun hl => ?_⟩
  · simp only [kDefAt, readKeyDefinition]
    rw [h0 (by omega), h1 hl]
  · simp only [kDefAt, readKeyDefinition]
    rw [h0 hl]
  · rw [h2 hl]
    exact Nat.mod_eq_of_lt (by have := hwf.2; omega)

theorem readOutputs_of_holds (memory : Nat → Byte) (lim : Nat) :
    ∀ (ks : List KeyDefinition) (p : Nat), Holds memory lim p (encodeOutputs ks) →
      p + 2 * ks.length ≤ lim → readOutputs memory ks.length p = ks := by
  intro ks
  induction ks with
  | nil => intro p _ _; rfl
  | cons k ks ih =>
    intro p h hl
    simp only [List.length_cons] at hl
    simp only [List.length_cons, readOutputs, sizeofKeyDefinition]
    have hk := h.left (a := encodeKeyDefinition k)
    have e0 := hk 0 k.nVkKey (by omega) rfl
    have e1 := hk 1 k.nFlags (by omega) rfl
    have hr := ih (p + 2) (by simpa [encodeKeyDefinition] using h.right (a := encodeKeyDefinition k))
      (by omega)
    rw [hr]
    simp only [readKeyDefinition]
    rw [Nat.add_zero] at e0
    rw [e0, e1]

/-- A well formed record that stands in memory whole is read back unchanged. -/
theorem recordAt_of_holds {memory : Nat → Byte} {lim o : Nat} {r : TranslationRecord}
    {rest : List Byte} (h : Holds memory lim o (encodeRecord r ++ rest))
    (hwf : r.wellFormed) (hl : o + (encodeRecord r).length ≤ lim) :
    recordAt memory o = r ∧ nKDefOutputAt memory o = r.outputs.length := by
  rw [encodeRecord_length] at hl
  have hh := header_of_holds h hwf
  have hn : nKDefOutputAt memory o = r.outputs.length := hh.2.2 (by have := hwf.1; omega)
  refine ⟨?_, hn⟩
  simp only [recordAt, hn, sizeofKeyTranslation]
  rw [hh.1 (by omega)]
  have hout : Holds memory lim (o + 3) (encodeOutputs r.outputs) := by
    have h1 := h.left
    have h2 : Holds memory lim (o + 3) (encodeOutputs r.outputs) := by
      have := @Holds.right memory lim o (encodeKeyDefinition r.trigger ++
        [(⟨r.outputs.length % 256, Nat.mod_lt _ (by decide)⟩ : Byte)])
        (encodeOutputs r.outputs) (by simpa [encodeRecord] using h1)
      simpa [encodeKeyDefinition] using this
    exact h2
  rw [readOutputs_of_holds memory lim r.outputs (o + 3) hout (by omega)]

theorem appendItem_apply (table : Nat → List Nat) (nVkKey pKey v : Nat) :
    appendItem table nVkKey pKey v = table v ++ (if nVkKey = v then [pKey] else []) := by
  unfold appendItem
  by_cases h : v = nVkKey
  · subst h
    cases table v <;> simp
  · have h2 : ¬ nVkKey = v := fun hx => h hx.symm
    simp [h, h2]

theorem bucketOf_cons (o : Nat) (r : TranslationRecord) (rs : List TranslationRecord)
    (v : Nat) :
    bucketOf o (r :: rs) v =
      (if r.trigger.nVkKey.val = v then [o] else []) ++
        bucketOf (o + (encodeRecord r).length) rs v := by
  unfold bucketOf
  by_cases h : r.trigger.nVkKey.val = v <;> simp [layout, List.filter_cons, h]

theorem encodeRecords_length_pos (r : TranslationRecord) (rs : List TranslationRecord) :
    3 ≤ (encodeRecords (r :: rs)).length := by
  simp only [encodeRecords, List.length_append, encodeRecord_length]; omega

/-- The record loop over the encoding of well formed records: it is left at
the end of the block, has visited the start of every record in file order, and
has hung every record at the end of the chain of its key code. -/
theorem walkLoop_records (memory : Nat → Byte) (pEnd : Nat) :
    ∀ (rs : List TranslationRecord), rs ≠ [] → ∀ (fuel o : Nat) (table : Nat → List Nat)
      (w : Walk), (∀ r ∈ rs, r.wellFormed) → Holds memory pEnd o (encodeRecords rs) →
      pEnd = o + (encodeRecords rs).length →
      walkLoop memory pEnd fuel o table = some w →
      w.exit = WalkExit.atEnd ∧ w.visited = startOffsets o rs ∧ w.pKey = pEnd ∧
        ∀ v, w.table v = table v ++ bucketOf o rs v := by
  intro rs
  induction rs with
  | nil => intro h; exact absurd rfl h
  | cons r rest ih =>
    intro _ fuel o table w hwf hh hend hw
    cases fuel with
    | zero => simp [walkLoop] at hw
    | succ fuel =>
      have hr : r.wellFormed := hwf r (List.mem_cons_self _ _)
      have hlen := encodeRecord_length r
      have hsplit : encodeRecords (r :: rest) = encodeRecord r ++ encodeRecords rest := rfl
      rw [hsplit] at hh
      rw [hsplit, List.length_append] at hend
      have hhd := header_of_holds hh hr
      have hcount : (memory (o + 2)).val = r.outputs.length := hhd.2.2 (by omega)
      have hvk : (kDefAt memory o).nVkKey = r.trigger.nVkKey := hhd.2.1 (by omega)
      have hnext : nextKey memory o = o + (encodeRecord r).length := by
        rw [nextKey_eq, hcount, hlen]; omega
      have hz : ¬ nKDefOutputAt memory o = 0 := by
        have : nKDefOutputAt memory o = r.outputs.length := hcount
        have := hr.1; omega
      unfold walkLoop at hw
      simp only [hz, if_false, hnext, hvk] at hw
      cases rest with
      | nil =>
        have hend2 : o + (encodeRecord r).length = pEnd := by
          simp only [encodeRecords, List.length_nil] at hend; omega
        rw [hend2] at hw
        simp only [gt_iff_lt, Nat.lt_irrefl, if_false, if_true, Option.some.injEq] at hw
        subst hw
        refine ⟨rfl, ?_, rfl, fun v => ?_⟩
        · simp [startOffsets, layout]
        · show appendItem table r.trigger.nVkKey.val o v = _
          rw [appendItem_apply, bucketOf_cons]
          simp [bucketOf, layout]
      | cons r2 rest2 =>
        have h3 := encodeRecords_length_pos r2 rest2
        have hgt : ¬ o + (encodeRecord r).length > pEnd := by omega
        have hne : ¬ o + (encodeRecord r).length = pEnd := by omega
        simp only [hgt, if_false, hne] at hw
        cases hrec : walkLoop memory pEnd fuel (o + (encodeRecord r).length)
            (appendItem table r.trigger.nVkKey.val o) with
        | none => simp [hrec] at hw
        | some w1 =>
          simp only [hrec, Option.some.injEq] at hw
          subst hw
          obtain ⟨i1, i2, i3, i4⟩ := ih (by simp) fuel _ _ w1
            (fun x hx => hwf x (List.mem_cons_of_mem _ hx)) hh.right (by omega) hrec
          refine ⟨i1, ?_, i3, fun v => ?_⟩
          · simp only [i2, startOffsets, layout, List.map_cons]
          · show w1.table v = _
            rw [i4 v, appendItem_apply, bucketOf_cons o r (r2 :: rest2) v, List.append_assoc]

/-- Every record of an encoded file that stands in memory whole is read back
unchanged at the offset it starts at. -/
theorem recordAt_layout (memory : Nat → Byte) (lim : Nat) :
    ∀ (rs : List TranslationRecord) (o : Nat), (∀ r ∈ rs, r.wellFormed) →
      Holds memory lim o (encodeRecords rs) → o + (encodeRecords rs).length ≤ lim →
      ∀ x ∈ layout o rs, recordAt memory x.1 = x.2 ∧
        nKDefOutputAt memory x.1 = x.2.outputs.length := by
  intro rs
  induction rs with
  | nil => intro o _ _ _ x hx; simp [layout] at hx
  | cons r rest ih =>
    intro o hwf hh hl x hx
    have hsplit : encodeRecords (r :: rest) = encodeRecord r ++ encodeRecords rest := rfl
    rw [hsplit] at hh
    rw [hsplit, List.length_append] at hl
    simp only [layout, List.mem_cons] at hx
    rcases hx with hx | hx
    · subst hx
      exact recordAt_of_holds hh (hwf r (List.mem_cons_self _ _)) (Nat.le_trans (by simp) hl)
    · exact ih _ (fun y hy => hwf y (List.mem_cons_of_mem _ hy)) hh.right (by omega) x hx

theorem layout_map_snd (rs : List TranslationRecord) :
    ∀ o, (layout o rs).map Prod.snd = rs := by
  induction rs with
  | nil => intro o; rfl
  | cons r rest ih => intro o; simp [layout, ih]

/-! ## The scans of the hook -/

theorem scanKeyDown_cons (memory : Nat → Byte) (keys : KeyState) (p : Nat) (rest : List Nat) :
    scanKeyDown memory keys.bAlt keys.bControl keys.bShift (p :: rest) =
      if chordMatches memory keys p then some p
      else scanKeyDown memory keys.bAlt keys.bControl keys.bShift rest := rfl

theorem scanKeyUp_cons (memory : Nat → Byte) (keys : KeyState) (p : Nat) (rest : List Nat) :
    scanKeyUp memory keys.bAlt keys.bControl keys.bShift (p :: rest) =
      if chordMatches memory keys p then true
      else scanKeyUp memory keys.bAlt keys.bControl keys.bShift rest := rfl

theorem scanKeyDown_eq_none_iff (memory : Nat → Byte) (keys : KeyState) (chain : List Nat) :
    scanKeyDown memory keys.bAlt keys.bControl keys.bShift chain = none ↔
      ∀ q ∈ chain, ¬ chordMatches memory keys q := by
  induction chain with
  | nil => simp [scanKeyDown]
  | cons p rest ih =>
    rw [scanKeyDown_cons]
    by_cases hm : chordMatches memory keys p
    · simp [hm]
    · simp [hm, ih]

theorem scanKeyDown_eq_some_iff (memory : Nat → Byte) (keys : KeyState) (chain : List Nat)
    (p : Nat) :
    scanKeyDown memory keys.bAlt keys.bControl keys.bShift chain = some p ↔
      ∃ pre post, chain = pre ++ p :: post ∧ chordMatches memory keys p ∧
        ∀ q ∈ pre, ¬ chordMatches memory keys q := by
  induction chain with
  | nil => simp [scanKeyDown]
  | cons a rest ih =>
    rw [scanKeyDown_cons]
    by_cases hm : chordMatches memory keys a
    · simp only [hm, if_true, Option.some.injEq]
      constructor
      · intro h; subst h
        exact ⟨[], rest, rfl, hm, by simp⟩
      · rintro ⟨pre, post, heq, _, hpre⟩
        cases pre with
        | nil => simp only [List.nil_append, List.cons.injEq] at heq; exact heq.1
        | cons x pre =>
          simp only [List.cons_append, List.cons.injEq] at heq
          exact absurd hm (heq.1 ▸ hpre x (List.mem_cons_self _ _))
    · simp only [hm, if_false, ih]
      constructor
      · rintro ⟨pre, post, heq, hp, hpre⟩
        refine ⟨a :: pre, post, by simp [heq], hp, ?_⟩
        intro q hq
        rcases List.mem_cons.mp hq with h | h
        · subst h; exact hm
        · exact hpre q h
      · rintro ⟨pre, post, heq, hp, hpre⟩
        cases pre with
        | nil =>
          simp only [List.nil_append, List.cons.injEq] at heq
          exact absurd (heq.1 ▸ hp) hm
        | cons x pre =>
          simp only [List.cons_append, List.cons.injEq] at heq
          exact ⟨pre, post, heq.2, hp, fun q hq => hpre q (List.mem_cons_of_mem _ hq)⟩

theorem scanKeyUp_eq_true_iff (memory : Nat → Byte) (keys : KeyState) (chain : List Nat) :
    scanKeyUp memory keys.bAlt keys.bControl keys.bShift chain = true ↔
      ∃ q ∈ chain, chordMatches memory keys q := by
  induction chain with
  | nil => simp [scanKeyUp]
  | cons p rest ih =>
    rw [scanKeyUp_cons]
    by_cases hm : chordMatches memory keys p
    · simp [hm]
    · simp [hm, ih]

/-- What a key-down event that is not injected does, in terms of the scan. -/
theorem proc_keyDown (e : Engine) (keys : KeyState) (wParam : Nat) (pHook : KBDLLHOOKSTRUCT)
    (hdown : wParam = WM_KEYDOWN ∨ wParam = WM_SYSKEYDOWN)
    (hinj : pHook.flags &&& LLKHF_INJECTED = 0) :
    LowLevelKeyboardProc e keys HC_ACTION wParam pHook =
      match scanKeyDown e.memory keys.bAlt keys.bControl keys.bShift
          (e.g_KeyTranslationTable pHook.vkCode) with
      | some pTrans =>
        { lookups := [pHook.vkCode], threads := [pTrans], ret := HookReturn.one }
      | none =>
        { lookups := [pHook.vkCode], threads := [], ret := HookReturn.CallNextHookEx } := by
  simp [LowLevelKeyboardProc, hinj, hdown]

/-- What a key-up event that is not injected does, in terms of the scan. -/
theorem proc_keyUp (e : Engine) (keys : KeyState) (wParam : Nat) (pHook : KBDLLHOOKSTRUCT)
    (hup : wParam = WM_KEYUP ∨ wParam = WM_SYSKEYUP)
    (hinj : pHook.flags &&& LLKHF_INJECTED = 0) :
    LowLevelKeyboardProc e keys HC_ACTION wParam pHook =
      if scanKeyUp e.memory keys.bAlt keys.bControl keys.bShift
          (e.g_KeyTranslationTable pHook.vkCode) then
        { lookups := [pHook.vkCode], threads := [], ret := HookReturn.one }
      else
        { lookups := [pHook.vkCode], threads := [], ret := HookReturn.CallNextHookEx } := by
  have hnd : ¬ (wParam = WM_KEYDOWN ∨ wParam = WM_SYSKEYDOWN) := by
    rcases hup with h | h <;> subst h <;> decide
  simp [LowLevelKeyboardProc, hinj, hnd, hup]

/-- A key-down or key-up event that is not injected is answered with `1`
exactly when a record of the bucket of its key code matches the modifier
state. -/
theorem proc_ret_one_iff (e : Engine) (keys : KeyState) (wParam : Nat) (pHook : KBDLLHOOKSTRUCT)
    (hkey : wParam = WM_KEYDOWN ∨ wParam = WM_SYSKEYDOWN ∨ wParam = WM_KEYUP ∨
      wParam = WM_SYSKEYUP)
    (hinj : pHook.flags &&& LLKHF_INJECTED = 0) :
    (LowLevelKeyboardProc e keys HC_ACTION wParam pHook).ret = HookReturn.one ↔
      ∃ q ∈ e.g_KeyTranslationTable pHook.vkCode, chordMatches e.memory keys q := by
  by_cases hdown : wParam = WM_KEYDOWN ∨ wParam = WM_SYSKEYDOWN
  · rw [proc_keyDown e keys wParam pHook hdown hinj]
    cases hs : scanKeyDown e.memory keys.bAlt keys.bControl keys.bShift
        (e.g_KeyTranslationTable pHook.vkCode) with
    | none =>
      have := (scanKeyDown_eq_none_iff _ _ _).mp hs
      constructor
      · intro h; cases h
      · rintro ⟨q, hq, hm⟩; exact absurd hm (this q hq)
    | some p =>
      obtain ⟨pre, post, heq, hp, _⟩ := (scanKeyDown_eq_some_iff _ _ _ _).mp hs
      simp only [true_iff]
      exact ⟨p, by rw [heq]; simp, hp⟩
  · have hup : wParam = WM_KEYUP ∨ wParam = WM_SYSKEYUP := by
      rcases hkey with h | h | h | h
      · exact absurd (Or.inl h) hdown
      · exact absurd (Or.inr h) hdown
      · exact Or.inl h
      · exact Or.inr h
    rw [proc_keyUp e keys wParam pHook hup hinj, ← scanKeyUp_eq_true_iff]
    cases scanKeyUp e.memory keys.bAlt keys.bControl keys.bShift
        (e.g_KeyTranslationTable pHook.vkCode) <;> simp

/-! ## The load of an encoded file -/

theorem encodeRecords_ne_nil {rs : List TranslationRecord} (hne : rs ≠ []) :
    encodeRecords rs ≠ [] := by
  cases rs with
  | nil => exact absurd rfl hne
  | cons r rest =>
    intro h
    have := encodeRecords_length_pos r rest
    rw [h] at this
    simp at this

/-- The load of the encoding of a non-empty list of well formed records: the
record loop is left at the end, after visiting the start of every record, with
every record in the bucket of its key code, and every record can be read back
from memory. -/
theorem load_records (e : Engine) (os : OsAnswers) (rs : List TranslationRecord)
    (hne : rs ≠ []) (hwf : ∀ r ∈ rs, r.wellFormed) (hd : os.delivers (encodeRecords rs)) :
    ∃ w, LoadAndCaptureFromFile e os =
        some (afterWalk (e.loading (encodeRecords rs)) os w) ∧
      w.exit = WalkExit.atEnd ∧ w.visited = startOffsets 0 rs ∧
      w.pKey = (encodeRecords rs).length ∧
      (∀ v, v < 256 → w.table v = bucketOf 0 rs v) ∧
      (∀ x ∈ layout 0 rs, recordAt (storeBytes e.memory (encodeRecords rs)) x.1 = x.2 ∧
        nKDefOutputAt (storeBytes e.memory (encodeRecords rs)) x.1 = x.2.outputs.length) := by
  obtain ⟨w, hw, hload⟩ := load_of_delivers e os _ hd (encodeRecords_ne_nil hne)
  have hh := holds_storeBytes e.memory (encodeRecords rs) (encodeRecords rs).length
  obtain ⟨i1, i2, i3, i4⟩ := walkLoop_records _ _ rs hne _ 0 _ w hwf hh (by omega) hw
  refine ⟨w, hload, i1, i2, i3, fun v hv => ?_, ?_⟩
  · rw [i4 v]
    simp [clearTable, HASH_TABLE_SIZE, hv]
  · exact recordAt_layout _ _ rs 0 hwf hh (by omega)

theorem mem_layout_of_mem (rs : List TranslationRecord) :
    ∀ (o : Nat) (r : TranslationRecord), r ∈ rs → ∃ p, (p, r) ∈ layout o rs := by
  induction rs with
  | nil => intro o r h; cases h
  | cons a rest ih =>
    intro o r h
    rcases List.mem_cons.mp h with h | h
    · subst h; exact ⟨o, by simp [layout]⟩
    · obtain ⟨p, hp⟩ := ih (o + (encodeRecord a).length) r h
      exact ⟨p, by simp [layout, hp]⟩

theorem mem_of_mem_layout (rs : List TranslationRecord) (o : Nat) (x : Nat × TranslationRecord)
    (h : x ∈ layout o rs) : x.2 ∈ rs := by
  have := List.mem_map_of_mem Prod.snd h
  rwa [layout_map_snd] at this

theorem mem_bucketOf (o : Nat) (rs : List TranslationRecord) (v p : Nat) :
    p ∈ bucketOf o rs v ↔ ∃ r, (p, r) ∈ layout o rs ∧ r.trigger.nVkKey.val = v := by
  simp [bucketOf]

/-- The record loop over a truncated file: when the block ends at `k`, inside
the encoding of the records and not at the start of one of them, the loop is
not left at the end of the block. -/
theorem walkLoop_truncated (memory : Nat → Byte) (k : Nat) :
    ∀ (rs : List TranslationRecord) (fuel o : Nat) (table : Nat → List Nat) (w : Walk),
      (∀ r ∈ rs, r.wellFormed) → o < k → k < o + (encodeRecords rs).length →
      k ∉ startOffsets o rs → Holds memory k o (encodeRecords rs) →
      walkLoop memory k fuel o table = some w → w.exit ≠ WalkExit.atEnd := by
  intro rs
  induction rs with
  | nil =>
    intro fuel o table w _ h1 h2
    simp only [encodeRecords, List.length_nil] at h2
    omega
  | cons r rest ih =>
    intro fuel o table w hwf hlt hk hnb hh hw
    cases fuel with
    | zero => simp [walkLoop] at hw
    | succ fuel =>
      have hr : r.wellFormed := hwf r (List.mem_cons_self _ _)
      have hlen := encodeRecord_length r
      have hsplit : encodeRecords (r :: rest) = encodeRecord r ++ encodeRecords rest := rfl
      rw [hsplit] at hh
      rw [hsplit, List.length_append] at hk
      have hhd := header_of_holds hh hr
      have hn := nextKey_eq memory o
      unfold walkLoop at hw
      by_cases hz : nKDefOutputAt memory o = 0
      · simp only [hz, if_true, Option.some.injEq] at hw
        subst hw; simp
      · simp only [hz, if_false] at hw
        by_cases hgt : nextKey memory o > k
        · simp only [hgt, if_true, Option.some.injEq] at hw
          subst hw; simp
        · have hin : o + 2 < k := by omega
          have hcount : (memory (o + 2)).val = r.outputs.length := hhd.2.2 hin
          have hnext : nextKey memory o = o + (encodeRecord r).length := by
            rw [hn, hcount, hlen]; omega
          have hso : startOffsets o (r :: rest) =
              o :: startOffsets (o + (encodeRecord r).length) rest := by
            simp [startOffsets, layout]
          rw [hso] at hnb
          have hne : ¬ nextKey memory o = k := by
            intro heq
            cases rest with
            | nil =>
              simp only [encodeRecords, List.length_nil] at hk
              omega
            | cons r2 rest2 =>
              apply hnb
              rw [← heq, hnext]
              simp [startOffsets, layout]
          simp only [hgt, if_false, hne] at hw
          cases hrec : walkLoop memory k fuel (nextKey memory o)
              (appendItem table (kDefAt memory o).nVkKey.val o) with
          | none => simp [hrec] at hw
          | some w1 =>
            simp only [hrec, Option.some.injEq] at hw
            subst hw
            rw [hnext] at hrec hgt hne
            exact ih fuel _ _ w1 (fun x hx => hwf x (List.mem_cons_of_mem _ hx)) (by omega)
              (by omega) (fun hx => hnb (List.mem_cons_of_mem _ hx)) hh.right hrec

/-- The key-down scan over the bucket a load built, when exactly the record
`R` of the file has the chord of the event: the scan selects `R`. -/
theorem scan_selects_unique (memory : Nat → Byte) (chain : List Nat)
    (rs : List TranslationRecord) (v : Nat) (keys : KeyState) (R : TranslationRecord)
    (hchain : chain = bucketOf 0 rs v)
    (hrec : ∀ x ∈ layout 0 rs, recordAt memory x.1 = x.2)
    (hR : R ∈ rs) (hch : R.hasChord v keys)
    (huniq : ∀ r ∈ rs, r.hasChord v keys → r = R) :
    ∃ p, scanKeyDown memory keys.bAlt keys.bControl keys.bShift chain = some p ∧
      (p, R) ∈ layout 0 rs := by
  have hk : ∀ x ∈ layout 0 rs, kDefAt memory x.1 = x.2.trigger :=
    fun x hx => congrArg TranslationRecord.trigger (hrec x hx)
  cases hs : scanKeyDown memory keys.bAlt keys.bControl keys.bShift chain with
  | none =>
    exfalso
    obtain ⟨q, hq⟩ := mem_layout_of_mem rs 0 R hR
    have hmem : q ∈ chain := by
      rw [hchain]; exact (mem_bucketOf 0 rs v q).mpr ⟨R, hq, hch.1⟩
    refine (scanKeyDown_eq_none_iff _ _ _).mp hs q hmem ?_
    unfold chordMatches
    rw [hk (q, R) hq]
    exact ⟨hch.2.1.symm, hch.2.2.1.symm, hch.2.2.2.symm⟩
  | some p =>
    obtain ⟨pre, post, heq, hm, _⟩ := (scanKeyDown_eq_some_iff _ _ _ p).mp hs
    have hmem : p ∈ bucketOf 0 rs v := by
      rw [← hchain, heq]; simp
    obtain ⟨r, hr, hv⟩ := (mem_bucketOf 0 rs v p).mp hmem
    unfold chordMatches at hm
    rw [hk (p, r) hr] at hm
    have : r = R := huniq r (mem_of_mem_layout rs 0 (p, r) hr)
      ⟨hv, hm.1.symm, hm.2.1.symm, hm.2.2.symm⟩
    subst this
    exact ⟨p, rfl, hr⟩

/-- In a list with exactly two records of key code `K`, two different records
of key code `K` are the only ones. -/
theorem two_of_key (rs : List TranslationRecord) (K : Byte) (R1 R2 : TranslationRecord)
    (h1 : R1 ∈ rs) (h2 : R2 ∈ rs) (hK1 : R1.trigger.nVkKey = K) (hK2 : R2.trigger.nVkKey = K)
    (hdiff : R1 ≠ R2)
    (htwo : (rs.filter (fun r => decide (r.trigger.nVkKey = K))).length = 2) :
    ∀ r ∈ rs, r.trigger.nVkKey = K → r = R1 ∨ r = R2 := by
  intro r hr hK
  have m1 : R1 ∈ rs.filter (fun r => decide (r.trigger.nVkKey = K)) :=
    List.mem_filter.mpr ⟨h1, by simpa using hK1⟩
  have m2 : R2 ∈ rs.filter (fun r => decide (r.trigger.nVkKey = K)) :=
    List.mem_filter.mpr ⟨h2, by simpa using hK2⟩
  have m : r ∈ rs.filter (fun r => decide (r.trigger.nVkKey = K)) :=
    List.mem_filter.mpr ⟨hr, by simpa using hK⟩
  obtain ⟨a, b, hf⟩ := List.length_eq_two.mp htwo
  rw [hf] at m1 m2 m
  simp only [List.mem_cons, List.mem_singleton, List.not_mem_nil, or_false] at m1 m2 m
  rcases m1 with m1 | m1 <;> rcases m2 with m2 | m2 <;> rcases m with m | m <;>
    subst_vars <;> simp_all

/-! ## The claims about the load -/

/-- C1: for every non-empty buffer `b` handed to `LoadAndCaptureFromFile`, the
load passes validation if and only if the record walk from offset 0 (every
record visited having a non-zero count, each step moving from `o` to
`o + 3 + 2 * n`) lands on offset exactly `length b`; if a step lands past
`length b` the load returns `INPUT_BAD`; and a load that succeeds has landed
exactly on the end. -/
theorem C1_validation_iff_walk_lands_on_end (e : Engine) (os : OsAnswers) (b : List Byte)
    (hd : os.delivers b) (hb : b ≠ []) :
    ∃ out, LoadAndCaptureFromFile e os = some out ∧
      (out.status.passedValidation ↔
        Lands (storeBytes e.memory b) b.length 0 b.length) ∧
      ((∃ q, b.length < q ∧ Lands (storeBytes e.memory b) b.length 0 q) →
        out.status = HOOK_RESULT.INPUT_BAD) ∧
      (out.status = HOOK_RESULT.HOOK_CREATION_SUCCESS →
        Lands (storeBytes e.memory b) b.length 0 b.length) := by
  obtain ⟨w, hw, hload⟩ := load_of_delivers e os b hd hb
  have hpos : 0 < b.length := List.length_pos.mpr hb
  obtain ⟨x1, x2, _⟩ := walkLoop_exit _ _ _ _ _ w hpos hw
  refine ⟨_, hload, ?_⟩
  by_cases hx : w.exit = WalkExit.atEnd
  · have ha := afterWalk_atEnd (e.loading b) os w hx
    refine ⟨⟨fun _ => x1.mp hx, fun _ => ha.1⟩, fun hq => ?_, fun _ => x1.mp hx⟩
    have := x2 hq
    rw [hx] at this
    cases this
  · have hn := afterWalk_not_atEnd (e.loading b) os w hx
    refine ⟨⟨fun hp => ?_, fun hl => absurd (x1.mpr hl) hx⟩, fun _ => hn.1, fun hs => ?_⟩
    · rw [hn.1] at hp
      rcases hp with hp | hp <;> cases hp
    · rw [hn.1] at hs
      cases hs

/-- C1, at the one-record file `41 00 01 42 00`. -/
theorem C1_validation_iff_walk_lands_on_end_witness :
    ((OsAnswers.ofBuffer [65, 0, 1, 66, 0] (some 1)).delivers [65, 0, 1, 66, 0] ∧
      ([65, 0, 1, 66, 0] : List Byte) ≠ []) ∧
    ∃ out, LoadAndCaptureFromFile (Engine.initial (fun _ => 0))
        (OsAnswers.ofBuffer [65, 0, 1, 66, 0] (some 1)) = some out ∧
      (out.status.passedValidation ↔
        Lands (storeBytes (fun _ => 0) [65, 0, 1, 66, 0]) 5 0 5) ∧
      ((∃ q, 5 < q ∧ Lands (storeBytes (fun _ => 0) [65, 0, 1, 66, 0]) 5 0 q) →
        out.status = HOOK_RESULT.INPUT_BAD) ∧
      (out.status = HOOK_RESULT.HOOK_CREATION_SUCCESS →
        Lands (storeBytes (fun _ => 0) [65, 0, 1, 66, 0]) 5 0 5) :=
  ⟨⟨by decide, by decide⟩,
    C1_validation_iff_walk_lands_on_end (Engine.initial (fun _ => 0))
      (OsAnswers.ofBuffer [65, 0, 1, 66, 0] (some 1)) [65, 0, 1, 66, 0] (by decide) (by decide)⟩

/-- C2: for every non-empty list `rs` of records with between 1 and 255 output
actions each, the load of the concatenation of their encodings visits exactly
the start offsets of the records, in order, reads back every record (chord,
count and actions) unchanged, leaves the loop with `pKey` equal to the length
of the buffer, and passes validation. -/
theorem C2_round_trip (e : Engine) (os : OsAnswers) (rs : List TranslationRecord)
    (hne : rs ≠ []) (hwf : ∀ r ∈ rs, r.wellFormed) (hd : os.delivers (encodeRecords rs)) :
    ∃ out w, LoadAndCaptureFromFile e os = some out ∧ out.walk = some w ∧
      w.visited = startOffsets 0 rs ∧
      w.visited.map (recordAt (storeBytes e.memory (encodeRecords rs))) = rs ∧
      w.visited.map (nKDefOutputAt (storeBytes e.memory (encodeRecords rs))) =
        rs.map (fun r => r.outputs.length) ∧
      w.pKey = (encodeRecords rs).length ∧
      w.exit = WalkExit.atEnd ∧ out.status.passedValidation := by
  obtain ⟨w, hload, i1, i2, i3, _, i5⟩ := load_records e os rs hne hwf hd
  have ha := afterWalk_atEnd (e.loading (encodeRecords rs)) os w i1
  refine ⟨_, w, hload, ha.2.1, i2, ?_, ?_, i3, i1, ha.1⟩
  · rw [i2, startOffsets, List.map_map]
    conv_rhs => rw [← layout_map_snd rs 0]
    exact List.map_congr_left (fun x hx => (i5 x hx).1)
  · rw [i2, startOffsets, List.map_map]
    conv_rhs => rw [← layout_map_snd rs 0, List.map_map]
    exact List.map_congr_left (fun x hx => (i5 x hx).2)

/-- C2, at a file of two records, `A` to `B B` and `Alt+A` to `C`. -/
theorem C2_round_trip_witness :
    ∃ out w, LoadAndCaptureFromFile (Engine.initial (fun _ => 0))
        (OsAnswers.ofBuffer [65, 0, 2, 66, 0, 66, 0, 65, 1, 1, 67, 0] (some 1)) = some out ∧
      out.walk = some w ∧
      w.visited = startOffsets 0 [⟨⟨65, 0⟩, [⟨66, 0⟩, ⟨66, 0⟩]⟩, ⟨⟨65, 1⟩, [⟨67, 0⟩]⟩] ∧
      w.visited.map (recordAt (storeBytes (Engine.initial (fun _ => 0)).memory
        (encodeRecords [⟨⟨65, 0⟩, [⟨66, 0⟩, ⟨66, 0⟩]⟩, ⟨⟨65, 1⟩, [⟨67, 0⟩]⟩]))) =
        [⟨⟨65, 0⟩, [⟨66, 0⟩, ⟨66, 0⟩]⟩, ⟨⟨65, 1⟩, [⟨67, 0⟩]⟩] ∧
      w.visited.map (nKDefOutputAt (storeBytes (Engine.initial (fun _ => 0)).memory
        (encodeRecords [⟨⟨65, 0⟩, [⟨66, 0⟩, ⟨66, 0⟩]⟩, ⟨⟨65, 1⟩, [⟨67, 0⟩]⟩]))) =
        [2, 1] ∧
      w.pKey = 12 ∧ w.exit = WalkExit.atEnd ∧ out.status.passedValidation :=
  C2_round_trip (Engine.initial (fun _ => 0))
    (OsAnswers.ofBuffer [65, 0, 2, 66, 0, 66, 0, 65, 1, 1, 67, 0] (some 1))
    [⟨⟨65, 0⟩, [⟨66, 0⟩, ⟨66, 0⟩]⟩, ⟨⟨65, 1⟩, [⟨67, 0⟩]⟩] (by decide) (by decide) (by decide)

/-- C3: after `LoadAndCaptureFromFile` has succeeded on the encoding of the
records `rs`, a key-down or key-up event that is not injected, with
`HC_ACTION`, a key code below 256 and any live modifier state, is answered
with `1` if and only if some record of `rs` has exactly that key code and
modifier state as its trigger chord; every other such event goes to
`CallNextHookEx`. -/
theorem C3_only_configured_chords_are_suppressed (e : Engine) (os : OsAnswers)
    (rs : List TranslationRecord) (hook : Nat) (keys : KeyState) (wParam : Nat)
    (pHook : KBDLLHOOKSTRUCT)
    (hne : rs ≠ []) (hwf : ∀ r ∈ rs, r.wellFormed) (hd : os.delivers (encodeRecords rs))
    (hhook : os.hookResult = some hook)
    (hkey : wParam = WM_KEYDOWN ∨ wParam = WM_SYSKEYDOWN ∨ wParam = WM_KEYUP ∨
      wParam = WM_SYSKEYUP)
    (hinj : pHook.flags &&& LLKHF_INJECTED = 0) (hvk : pHook.vkCode < 256) :
    ∃ out, LoadAndCaptureFromFile e os = some out ∧
      out.status = HOOK_RESULT.HOOK_CREATION_SUCCESS ∧
      ((LowLevelKeyboardProc out.engine keys HC_ACTION wParam pHook).ret = HookReturn.one ↔
        ∃ r ∈ rs, r.hasChord pHook.vkCode keys) ∧
      ((¬ ∃ r ∈ rs, r.hasChord pHook.vkCode keys) →
        (LowLevelKeyboardProc out.engine keys HC_ACTION wParam pHook).ret =
          HookReturn.CallNextHookEx) := by
  obtain ⟨w, hload, i1, _, _, i4, i5⟩ := load_records e os rs hne hwf hd
  obtain ⟨hs, heng, _⟩ := (afterWalk_atEnd (e.loading (encodeRecords rs)) os w i1).2.2.1 hook hhook
  have hiff : (LowLevelKeyboardProc (afterWalk (e.loading (encodeRecords rs)) os w).engine keys
      HC_ACTION wParam pHook).ret = HookReturn.one ↔ ∃ r ∈ rs, r.hasChord pHook.vkCode keys := by
    rw [proc_ret_one_iff _ keys wParam pHook hkey hinj, heng]
    show (∃ q ∈ w.table pHook.vkCode,
      chordMatches (storeBytes e.memory (encodeRecords rs)) keys q) ↔ _
    rw [i4 _ hvk]
    constructor
    · rintro ⟨q, hq, hm⟩
      obtain ⟨r, hr, hv⟩ := (mem_bucketOf 0 rs _ q).mp hq
      have hk : kDefAt (storeBytes e.memory (encodeRecords rs)) q = r.trigger :=
        congrArg TranslationRecord.trigger (i5 (q, r) hr).1
      refine ⟨r, mem_of_mem_layout rs 0 (q, r) hr, hv, ?_⟩
      unfold chordMatches at hm
      rw [hk] at hm
      exact ⟨hm.1.symm, hm.2.1.symm, hm.2.2.symm⟩
    · rintro ⟨r, hr, hv, ha, hc, hsh⟩
      obtain ⟨q, hq⟩ := mem_layout_of_mem rs 0 r hr
      have hk : kDefAt (storeBytes e.memory (encodeRecords rs)) q = r.trigger :=
        congrArg TranslationRecord.trigger (i5 (q, r) hq).1
      refine ⟨q, (mem_bucketOf 0 rs _ q).mpr ⟨r, hq, hv⟩, ?_⟩
      unfold chordMatches
      rw [hk]
      exact ⟨ha.symm, hc.symm, hsh.symm⟩
  refine ⟨_, hload, hs, hiff, fun hno => ?_⟩
  cases hret : (LowLevelKeyboardProc (afterWalk (e.loading (encodeRecords rs)) os w).engine keys
      HC_ACTION wParam pHook).ret with
  | one => exact absurd (hiff.mp hret) hno
  | CallNextHookEx => rfl

/-- C3, at a file of two records, `A` to `B B` and `Alt+A` to `C`, for a key
down of `A` with no modifier held. -/
theorem C3_only_configured_chords_are_suppressed_witness :
    ∃ out, LoadAndCaptureFromFile (Engine.initial (fun _ => 0))
        (OsAnswers.ofBuffer (encodeRecords [⟨⟨65, 0⟩, [⟨66, 0⟩, ⟨66, 0⟩]⟩, ⟨⟨65, 1⟩, [⟨67, 0⟩]⟩])
          (some 1)) = some out ∧
      out.status = HOOK_RESULT.HOOK_CREATION_SUCCESS ∧
      ((LowLevelKeyboardProc out.engine ⟨false, false, false⟩ HC_ACTION WM_KEYDOWN
          ⟨65, 0⟩).ret = HookReturn.one ↔
        ∃ r ∈ [(⟨⟨65, 0⟩, [⟨66, 0⟩, ⟨66, 0⟩]⟩ : TranslationRecord), ⟨⟨65, 1⟩, [⟨67, 0⟩]⟩],
          r.hasChord 65 ⟨false, false, false⟩) ∧
      ((¬ ∃ r ∈ [(⟨⟨65, 0⟩, [⟨66, 0⟩, ⟨66, 0⟩]⟩ : TranslationRecord), ⟨⟨65, 1⟩, [⟨67, 0⟩]⟩],
          r.hasChord 65 ⟨false, false, false⟩) →
        (LowLevelKeyboardProc out.engine ⟨false, false, false⟩ HC_ACTION WM_KEYDOWN
          ⟨65, 0⟩).ret = HookReturn.CallNextHookEx) :=
  C3_only_configured_chords_are_suppressed (Engine.initial (fun _ => 0))
    (OsAnswers.ofBuffer (encodeRecords [⟨⟨65, 0⟩, [⟨66, 0⟩, ⟨66, 0⟩]⟩, ⟨⟨65, 1⟩, [⟨67, 0⟩]⟩])
      (some 1))
    [⟨⟨65, 0⟩, [⟨66, 0⟩, ⟨66, 0⟩]⟩, ⟨⟨65, 1⟩, [⟨67, 0⟩]⟩] 1 ⟨false, false, false⟩ WM_KEYDOWN
    ⟨65, 0⟩ (by decide) (by decide) (by decide) rfl (by decide) (by decide) (by decide)

/-- C4: for every well formed encoded buffer and every `k` with
`0 < k < length` that is not the start offset of one of its records, the load
of the first `k` bytes fails validation: it returns `INPUT_BAD`, never
success, and does not call `SetWindowsHookEx`. -/
theorem C4_truncated_file_is_INPUT_BAD (e : Engine) (os : OsAnswers)
    (rs : List TranslationRecord) (k : Nat)
    (hwf : ∀ r ∈ rs, r.wellFormed) (hk0 : 0 < k) (hk : k < (encodeRecords rs).length)
    (hnb : k ∉ startOffsets 0 rs) (hd : os.delivers ((encodeRecords rs).take k)) :
    ∃ out, LoadAndCaptureFromFile e os = some out ∧
      out.status = HOOK_RESULT.INPUT_BAD ∧
      out.status ≠ HOOK_RESULT.HOOK_CREATION_SUCCESS ∧
      ∀ r, Effect.SetWindowsHookEx r ∉ out.effects := by
  have hlen : ((encodeRecords rs).take k).length = k := by
    rw [List.length_take]; omega
  have hb : (encodeRecords rs).take k ≠ [] := by
    intro h
    rw [h] at hlen
    simp at hlen
    omega
  obtain ⟨w, hw, hload⟩ := load_of_delivers e os _ hd hb
  rw [hlen] at hw
  have hx := walkLoop_truncated _ k rs k 0 _ w hwf hk0 (by omega) hnb
    (holds_storeBytes_take e.memory (encodeRecords rs) k) hw
  have hn := afterWalk_not_atEnd (e.loading ((encodeRecords rs).take k)) os w hx
  refine ⟨_, hload, hn.1, ?_, hn.2.2.2⟩
  rw [hn.1]
  intro h
  cases h

/-- C4, at the file of two records `A` to `B B` and `Alt+A` to `C` (twelve
bytes, records at 0 and 7), cut after 9 bytes. -/
theorem C4_truncated_file_is_INPUT_BAD_witness :
    ∃ out, LoadAndCaptureFromFile (Engine.initial (fun _ => 0))
        (OsAnswers.ofBuffer
          ((encodeRecords [⟨⟨65, 0⟩, [⟨66, 0⟩, ⟨66, 0⟩]⟩, ⟨⟨65, 1⟩, [⟨67, 0⟩]⟩]).take 9)
          (some 1)) = some out ∧
      out.status = HOOK_RESULT.INPUT_BAD ∧
      out.status ≠ HOOK_RESULT.HOOK_CREATION_SUCCESS ∧
      ∀ r, Effect.SetWindowsHookEx r ∉ out.effects :=
  C4_truncated_file_is_INPUT_BAD (Engine.initial (fun _ => 0))
    (OsAnswers.ofBuffer
      ((encodeRecords [⟨⟨65, 0⟩, [⟨66, 0⟩, ⟨66, 0⟩]⟩, ⟨⟨65, 1⟩, [⟨67, 0⟩]⟩]).take 9) (some 1))
    [⟨⟨65, 0⟩, [⟨66, 0⟩, ⟨66, 0⟩]⟩, ⟨⟨65, 1⟩, [⟨67, 0⟩]⟩] 9
    (by decide) (by decide) (by decide) (by decide) (by decide)

/-- C5 (what the code does): for an existing file of zero bytes
`LoadAndCaptureFromFile` returns `INPUT_BAD`, not `INPUT_ZERO`; it does not
call `SetWindowsHookEx`. -/
theorem C5_empty_file_returns_INPUT_BAD (e : Engine) (hook : Option Nat) :
    ∃ out, LoadAndCaptureFromFile e (OsAnswers.ofBuffer [] hook) = some out ∧
      out.status = HOOK_RESULT.INPUT_BAD ∧ out.status ≠ HOOK_RESULT.INPUT_ZERO ∧
      ∀ r, Effect.SetWindowsHookEx r ∉ out.effects := by
  refine ⟨_, rfl, rfl, fun h => (by cases h), fun r => ?_⟩
  exact ShutdownCapture_no_hook _ r

/-- C6: when the record walk over a buffer reaches a record whose count byte
is 0, `LoadAndCaptureFromFile` returns `INPUT_BAD` and does not call
`SetWindowsHookEx`, whatever the rest of the buffer holds. -/
theorem C6_zero_count_is_INPUT_BAD (e : Engine) (os : OsAnswers) (b : List Byte)
    (hd : os.delivers b)
    (hz : ∃ q, q < b.length ∧ Lands (storeBytes e.memory b) b.length 0 q ∧
      (storeBytes e.memory b (q + 2)).val = 0) :
    ∃ out, LoadAndCaptureFromFile e os = some out ∧
      out.status = HOOK_RESULT.INPUT_BAD ∧
      ∀ r, Effect.SetWindowsHookEx r ∉ out.effects := by
  have hb : b ≠ [] := by
    obtain ⟨q, hq, _⟩ := hz
    intro h
    simp [h] at hq
  obtain ⟨w, hw, hload⟩ := load_of_delivers e os b hd hb
  have hpos : 0 < b.length := List.length_pos.mpr hb
  obtain ⟨_, _, x3⟩ := walkLoop_exit _ _ _ _ _ w hpos hw
  have hx : w.exit ≠ WalkExit.atEnd := by
    rw [x3 hz]; decide
  have hn := afterWalk_not_atEnd (e.loading b) os w hx
  exact ⟨_, hload, hn.1, hn.2.2.2⟩

/-- C6, at a file whose second record (at offset 5) has count 0 and is
followed by five bytes that would line up with the end of the file. -/
theorem C6_zero_count_is_INPUT_BAD_witness :
    ∃ out, LoadAndCaptureFromFile (Engine.initial (fun _ => 0))
        (OsAnswers.ofBuffer [65, 0, 1, 66, 0, 67, 0, 0, 68, 0, 1, 69, 0] (some 1)) = some out ∧
      out.status = HOOK_RESULT.INPUT_BAD ∧
      ∀ r, Effect.SetWindowsHookEx r ∉ out.effects :=
  C6_zero_count_is_INPUT_BAD (Engine.initial (fun _ => 0))
    (OsAnswers.ofBuffer [65, 0, 1, 66, 0, 67, 0, 0, 68, 0, 1, 69, 0] (some 1))
    [65, 0, 1, 66, 0, 67, 0, 0, 68, 0, 1, 69, 0] (by decide)
    ⟨5, by decide, Lands.step 0 5 (by decide) (by decide) (Lands.here 5), by decide⟩

/-! ## The claims about the hook -/

/-- C7: for every dispatch table, key code and modifier state, the record the
key-down scan of `LowLevelKeyboardProc` selects (the one `SendInputThread` is
created for) is the first record, in chain order, of the bucket of the key
code whose stored `bAlt`, `bControl` and `bShift` all equal the live state;
when no record of the bucket matches on all three, nothing is selected; and a
selected record always matches on all three flags. -/
theorem C7_lookup_is_first_exact_match (e : Engine) (keys : KeyState) (wParam : Nat)
    (pHook : KBDLLHOOKSTRUCT)
    (hdown : wParam = WM_KEYDOWN ∨ wParam = WM_SYSKEYDOWN)
    (hinj : pHook.flags &&& LLKHF_INJECTED = 0) :
    (∀ p, (LowLevelKeyboardProc e keys HC_ACTION wParam pHook).threads = [p] ↔
      ∃ pre post, e.g_KeyTranslationTable pHook.vkCode = pre ++ p :: post ∧
        chordMatches e.memory keys p ∧ ∀ q ∈ pre, ¬ chordMatches e.memory keys q) ∧
    ((LowLevelKeyboardProc e keys HC_ACTION wParam pHook).threads = [] ↔
      ∀ q ∈ e.g_KeyTranslationTable pHook.vkCode, ¬ chordMatches e.memory keys q) ∧
    (∀ p ∈ (LowLevelKeyboardProc e keys HC_ACTION wParam pHook).threads,
      keys.bAlt = (kDefAt e.memory p).bAlt ∧ keys.bControl = (kDefAt e.memory p).bControl ∧
        keys.bShift = (kDefAt e.memory p).bShift) := by
  rw [proc_keyDown e keys wParam pHook hdown hinj]
  cases hs : scanKeyDown e.memory keys.bAlt keys.bControl keys.bShift
      (e.g_KeyTranslationTable pHook.vkCode) with
  | none =>
    have hnone := (scanKeyDown_eq_none_iff _ _ _).mp hs
    refine ⟨fun p => ⟨fun h => (by cases h), ?_⟩, ⟨fun _ => hnone, fun _ => rfl⟩,
      fun p hp => (by cases hp)⟩
    rintro ⟨pre, post, heq, hp, _⟩
    exact absurd hp (hnone p (by rw [heq]; simp))
  | some p0 =>
    have hsome := (scanKeyDown_eq_some_iff _ _ _ p0).mp hs
    refine ⟨fun p => ⟨fun h => ?_, fun h => ?_⟩, ⟨fun h => (by cases h), fun h => ?_⟩,
      fun p hp => ?_⟩
    · have hp : p0 = p := by simpa using h
      subst hp
      exact hsome
    · have := (scanKeyDown_eq_some_iff _ _ _ p).mpr h
      rw [hs] at this
      simp only [Option.some.injEq] at this
      subst this
      rfl
    · obtain ⟨pre, post, heq, hp, _⟩ := hsome
      exact absurd hp (h p0 (by rw [heq]; simp))
    · have hp2 : p = p0 := by simpa using hp
      subst hp2
      obtain ⟨_, _, _, hm, _⟩ := hsome
      exact hm

/-- C7, at a bucket that holds a record for `Alt+A` in front of a record for
plain `A`, for a plain key down of `A`. -/
theorem C7_lookup_is_first_exact_match_witness :
    (∀ p, (LowLevelKeyboardProc
        { Engine.initial (storeBytes (fun _ => 0) [65, 1, 1, 67, 0, 65, 0, 1, 66, 0]) with
          g_KeyTranslationTable := fun v => if v = 65 then [0, 5] else [] }
        ⟨false, false, false⟩ HC_ACTION WM_KEYDOWN ⟨65, 0⟩).threads = [p] ↔
      ∃ pre post, (if (65 : Nat) = 65 then [0, 5] else []) = pre ++ p :: post ∧
        chordMatches (storeBytes (fun _ => 0) [65, 1, 1, 67, 0, 65, 0, 1, 66, 0])
          ⟨false, false, false⟩ p ∧
        ∀ q ∈ pre, ¬ chordMatches (storeBytes (fun _ => 0) [65, 1, 1, 67, 0, 65, 0, 1, 66, 0])
          ⟨false, false, false⟩ q) ∧
    (LowLevelKeyboardProc
        { Engine.initial (storeBytes (fun _ => 0) [65, 1, 1, 67, 0, 65, 0, 1, 66, 0]) with
          g_KeyTranslationTable := fun v => if v = 65 then [0, 5] else [] }
        ⟨false, false, false⟩ HC_ACTION WM_KEYDOWN ⟨65, 0⟩).threads = [5] :=
  ⟨(C7_lookup_is_first_exact_match
      { Engine.initial (storeBytes (fun _ => 0) [65, 1, 1, 67, 0, 65, 0, 1, 66, 0]) with
        g_KeyTranslationTable := fun v => if v = 65 then [0, 5] else [] }
      ⟨false, false, false⟩ WM_KEYDOWN ⟨65, 0⟩ (by decide) (by decide)).1, by decide⟩

/-- C8: for every well formed configuration that holds exactly two records of
key code `K`, `R1` with chord `(K, Alt, c, s)` and `R2` with chord
`(K, no Alt, c, s)`, in either order and among any records of other key
codes, after a successful load a key down of `K` with `(Alt held, c, s)`
creates the thread for `R1` and a key down of `K` with `(Alt not held, c, s)`
creates the thread for `R2`. -/
theorem C8_disambiguation (e : Engine) (os : OsAnswers) (rs : List TranslationRecord)
    (hook : Nat) (K : Byte) (c s : Bool) (R1 R2 : TranslationRecord) (wParam : Nat)
    (pHook : KBDLLHOOKSTRUCT)
    (hwf : ∀ r ∈ rs, r.wellFormed) (hd : os.delivers (encodeRecords rs))
    (hhook : os.hookResult = some hook)
    (h1 : R1 ∈ rs) (h2 : R2 ∈ rs)
    (hR1 : R1.hasChord K.val ⟨true, c, s⟩) (hR2 : R2.hasChord K.val ⟨false, c, s⟩)
    (htwo : (rs.filter (fun r => decide (r.trigger.nVkKey = K))).length = 2)
    (hdown : wParam = WM_KEYDOWN ∨ wParam = WM_SYSKEYDOWN)
    (hinj : pHook.flags &&& LLKHF_INJECTED = 0) (hvk : pHook.vkCode = K.val) :
    ∃ out, LoadAndCaptureFromFile e os = some out ∧
      out.status = HOOK_RESULT.HOOK_CREATION_SUCCESS ∧
      (∃ p, (LowLevelKeyboardProc out.engine ⟨true, c, s⟩ HC_ACTION wParam pHook).threads = [p] ∧
        (p, R1) ∈ layout 0 rs ∧ recordAt out.engine.memory p = R1) ∧
      (∃ p, (LowLevelKeyboardProc out.engine ⟨false, c, s⟩ HC_ACTION wParam pHook).threads = [p] ∧
        (p, R2) ∈ layout 0 rs ∧ recordAt out.engine.memory p = R2) := by
  have hne : rs ≠ [] := List.ne_nil_of_mem h1
  obtain ⟨w, hload, i1, _, _, i4, i5⟩ := load_records e os rs hne hwf hd
  obtain ⟨hs, heng, _⟩ := (afterWalk_atEnd (e.loading (encodeRecords rs)) os w i1).2.2.1 hook hhook
  have hdiff : R1 ≠ R2 := by
    intro h
    have a1 := hR1.2.1
    have a2 := hR2.2.1
    rw [h] at a1
    rw [a1] at a2
    cases a2
  have honly := two_of_key rs K R1 R2 h1 h2 (Fin.ext hR1.1) (Fin.ext hR2.1) hdiff htwo
  have hrec : ∀ x ∈ layout 0 rs,
      recordAt (storeBytes e.memory (encodeRecords rs)) x.1 = x.2 := fun x hx => (i5 x hx).1
  have htab : w.table pHook.vkCode = bucketOf 0 rs K.val := by
    rw [hvk]; exact i4 _ K.isLt
  have hu1 : ∀ r ∈ rs, r.hasChord K.val ⟨true, c, s⟩ → r = R1 := by
    intro r hr hch
    rcases honly r hr (Fin.ext hch.1) with h | h
    · exact h
    · subst h
      have a1 := hch.2.1
      have a2 := hR2.2.1
      rw [a1] at a2
      cases a2
  have hu2 : ∀ r ∈ rs, r.hasChord K.val ⟨false, c, s⟩ → r = R2 := by
    intro r hr hch
    rcases honly r hr (Fin.ext hch.1) with h | h
    · subst h
      have a1 := hch.2.1
      have a2 := hR1.2.1
      rw [a1] at a2
      cases a2
    · exact h
  obtain ⟨p1, hp1, hl1⟩ := scan_selects_unique (storeBytes e.memory (encodeRecords rs))
    (w.table pHook.vkCode) rs K.val ⟨true, c, s⟩ R1 htab hrec h1 hR1 hu1
  obtain ⟨p2, hp2, hl2⟩ := scan_selects_unique (storeBytes e.memory (encodeRecords rs))
    (w.table pHook.vkCode) rs K.val ⟨false, c, s⟩ R2 htab hrec h2 hR2 hu2
  refine ⟨_, hload, hs, ⟨p1, ?_, hl1, ?_⟩, ⟨p2, ?_, hl2, ?_⟩⟩
  · rw [proc_keyDown _ _ wParam pHook hdown hinj, heng]
    show (match scanKeyDown (storeBytes e.memory (encodeRecords rs)) true c s
      (w.table pHook.vkCode) with
      | some pTrans =>
        ({ lookups := [pHook.vkCode], threads := [pTrans], ret := HookReturn.one } : HookOutcome)
      | none =>
        { lookups := [pHook.vkCode], threads := [], ret := HookReturn.CallNextHookEx }).threads
      = [p1]
    rw [hp1]
  · rw [heng]; exact hrec (p1, R1) hl1
  · rw [proc_keyDown _ _ wParam pHook hdown hinj, heng]
    show (match scanKeyDown (storeBytes e.memory (encodeRecords rs)) false c s
      (w.table pHook.vkCode) with
      | some pTrans =>
        ({ lookups := [pHook.vkCode], threads := [pTrans], ret := HookReturn.one } : HookOutcome)
      | none =>
        { lookups := [pHook.vkCode], threads := [], ret := HookReturn.CallNextHookEx }).threads
      = [p2]
    rw [hp2]
  · rw [heng]; exact hrec (p2, R2) hl2

/-- C8, at a file that holds `F`, plain `A`, `Shift+H` and `Alt+A` in this
order: the record for `Alt+A` comes after the one for plain `A`, with a record
of another key between them. -/
theorem C8_disambiguation_witness :
    ∃ out, LoadAndCaptureFromFile (Engine.initial (fun _ => 0))
        (OsAnswers.ofBuffer (encodeRecords [⟨⟨70, 0⟩, [⟨71, 0⟩]⟩, ⟨⟨65, 0⟩, [⟨66, 0⟩, ⟨66, 0⟩]⟩, ⟨⟨72, 4⟩, [⟨73, 0⟩]⟩, ⟨⟨65, 1⟩, [⟨67, 0⟩]⟩])
          (some 1)) = some out ∧
      out.status = HOOK_RESULT.HOOK_CREATION_SUCCESS ∧
      (∃ p, (LowLevelKeyboardProc out.engine ⟨true, false, false⟩ HC_ACTION WM_KEYDOWN
          ⟨65, 0⟩).threads = [p] ∧
        (p, (⟨⟨65, 1⟩, [⟨67, 0⟩]⟩ : TranslationRecord)) ∈ layout 0 [⟨⟨70, 0⟩, [⟨71, 0⟩]⟩, ⟨⟨65, 0⟩, [⟨66, 0⟩, ⟨66, 0⟩]⟩, ⟨⟨72, 4⟩, [⟨73, 0⟩]⟩, ⟨⟨65, 1⟩, [⟨67, 0⟩]⟩] ∧
        recordAt out.engine.memory p = ⟨⟨65, 1⟩, [⟨67, 0⟩]⟩) ∧
      (∃ p, (LowLevelKeyboardProc out.engine ⟨false, false, false⟩ HC_ACTION WM_KEYDOWN
          ⟨65, 0⟩).threads = [p] ∧
        (p, (⟨⟨65, 0⟩, [⟨66, 0⟩, ⟨66, 0⟩]⟩ : TranslationRecord)) ∈ layout 0 [⟨⟨70, 0⟩, [⟨71, 0⟩]⟩, ⟨⟨65, 0⟩, [⟨66, 0⟩, ⟨66, 0⟩]⟩, ⟨⟨72, 4⟩, [⟨73, 0⟩]⟩, ⟨⟨65, 1⟩, [⟨67, 0⟩]⟩] ∧
        recordAt out.engine.memory p = ⟨⟨65, 0⟩, [⟨66, 0⟩, ⟨66, 0⟩]⟩) :=
  C8_disambiguation (Engine.initial (fun _ => 0))
    (OsAnswers.ofBuffer (encodeRecords [⟨⟨70, 0⟩, [⟨71, 0⟩]⟩, ⟨⟨65, 0⟩, [⟨66, 0⟩, ⟨66, 0⟩]⟩, ⟨⟨72, 4⟩, [⟨73, 0⟩]⟩, ⟨⟨65, 1⟩, [⟨67, 0⟩]⟩])
      (some 1))
    [⟨⟨70, 0⟩, [⟨71, 0⟩]⟩, ⟨⟨65, 0⟩, [⟨66, 0⟩, ⟨66, 0⟩]⟩, ⟨⟨72, 4⟩, [⟨73, 0⟩]⟩, ⟨⟨65, 1⟩, [⟨67, 0⟩]⟩]
    1 65 false false ⟨⟨65, 1⟩, [⟨67, 0⟩]⟩ ⟨⟨65, 0⟩, [⟨66, 0⟩, ⟨66, 0⟩]⟩ WM_KEYDOWN ⟨65, 0⟩
    (by decide) (by decide) rfl (by decide) (by decide) (by decide) (by decide) (by decide)
    (by decide) (by decide) rfl

/-- C9: for every dispatch table, key code and modifier state, a key-up event
(`WM_KEYUP` or `WM_SYSKEYUP`) that is not injected is answered with `1` if and
only if the key-down event (`WM_KEYDOWN` or `WM_SYSKEYDOWN`) with the same key
code and modifier state is; when no record of the bucket matches, both go to
`CallNextHookEx`. -/
theorem C9_suppression_symmetry (e : Engine) (keys : KeyState) (wUp wDown : Nat)
    (pHook : KBDLLHOOKSTRUCT)
    (hup : wUp = WM_KEYUP ∨ wUp = WM_SYSKEYUP)
    (hdown : wDown = WM_KEYDOWN ∨ wDown = WM_SYSKEYDOWN)
    (hinj : pHook.flags &&& LLKHF_INJECTED = 0) :
    ((LowLevelKeyboardProc e keys HC_ACTION wUp pHook).ret = HookReturn.one ↔
      (LowLevelKeyboardProc e keys HC_ACTION wDown pHook).ret = HookReturn.one) ∧
    ((∀ q ∈ e.g_KeyTranslationTable pHook.vkCode, ¬ chordMatches e.memory keys q) →
      (LowLevelKeyboardProc e keys HC_ACTION wUp pHook).ret = HookReturn.CallNextHookEx ∧
      (LowLevelKeyboardProc e keys HC_ACTION wDown pHook).ret = HookReturn.CallNextHookEx) := by
  have h1 := proc_ret_one_iff e keys wUp pHook
    (by rcases hup with h | h
        · exact Or.inr (Or.inr (Or.inl h))
        · exact Or.inr (Or.inr (Or.inr h))) hinj
  have h2 := proc_ret_one_iff e keys wDown pHook
    (by rcases hdown with h | h
        · exact Or.inl h
        · exact Or.inr (Or.inl h)) hinj
  refine ⟨h1.trans h2.symm, fun hno => ⟨?_, ?_⟩⟩
  · cases hr : (LowLevelKeyboardProc e keys HC_ACTION wUp pHook).ret with
    | one =>
      obtain ⟨q, hq, hm⟩ := h1.mp hr
      exact absurd hm (hno q hq)
    | CallNextHookEx => rfl
  · cases hr : (LowLevelKeyboardProc e keys HC_ACTION wDown pHook).ret with
    | one =>
      obtain ⟨q, hq, hm⟩ := h2.mp hr
      exact absurd hm (hno q hq)
    | CallNextHookEx => rfl

/-- C9, at a table with one record for plain `A`, for `WM_KEYUP` and
`WM_KEYDOWN` of `A` with no modifier held: both are answered with `1`. -/
theorem C9_suppression_symmetry_witness :
    (LowLevelKeyboardProc
        { Engine.initial (storeBytes (fun _ => 0) [65, 0, 1, 66, 0]) with
          g_KeyTranslationTable := fun v => if v = 65 then [0] else [] }
        ⟨false, false, false⟩ HC_ACTION WM_KEYUP ⟨65, 0⟩).ret = HookReturn.one ∧
    ((LowLevelKeyboardProc
        { Engine.initial (storeBytes (fun _ => 0) [65, 0, 1, 66, 0]) with
          g_KeyTranslationTable := fun v => if v = 65 then [0] else [] }
        ⟨false, false, false⟩ HC_ACTION WM_KEYUP ⟨65, 0⟩).ret = HookReturn.one ↔
      (LowLevelKeyboardProc
        { Engine.initial (storeBytes (fun _ => 0) [65, 0, 1, 66, 0]) with
          g_KeyTranslationTable := fun v => if v = 65 then [0] else [] }
        ⟨false, false, false⟩ HC_ACTION WM_KEYDOWN ⟨65, 0⟩).ret = HookReturn.one) :=
  ⟨by decide,
    (C9_suppression_symmetry
      { Engine.initial (storeBytes (fun _ => 0) [65, 0, 1, 66, 0]) with
        g_KeyTranslationTable := fun v => if v = 65 then [0] else [] }
      ⟨false, false, false⟩ WM_KEYUP WM_KEYDOWN ⟨65, 0⟩ (by decide) (by decide) (by decide)).1⟩

/-- C10: for every dispatch table and every event whose flags carry
`LLKHF_INJECTED`, `LowLevelKeyboardProc` reads no bucket of the table, creates
no `SendInputThread` and returns through `CallNextHookEx`, whatever the table
holds. -/
theorem C10_injected_events_are_never_matched (e : Engine) (keys : KeyState) (nCode : Int)
    (wParam : Nat) (pHook : KBDLLHOOKSTRUCT)
    (hinj : pHook.flags &&& LLKHF_INJECTED ≠ 0) :
    (LowLevelKeyboardProc e keys nCode wParam pHook).lookups = [] ∧
    (LowLevelKeyboardProc e keys nCode wParam pHook).threads = [] ∧
    (LowLevelKeyboardProc e keys nCode wParam pHook).ret = HookReturn.CallNextHookEx := by
  simp [LowLevelKeyboardProc, hinj]

/-- C10, at a table with one record for plain `A`, for an injected key down of
`A` with no modifier held: the record would match, and is not looked up. -/
theorem C10_injected_events_are_never_matched_witness :
    chordMatches (storeBytes (fun _ => 0) [65, 0, 1, 66, 0]) ⟨false, false, false⟩ 0 ∧
    (LowLevelKeyboardProc
        { Engine.initial (storeBytes (fun _ => 0) [65, 0, 1, 66, 0]) with
          g_KeyTranslationTable := fun v => if v = 65 then [0] else [] }
        ⟨false, false, false⟩ HC_ACTION WM_KEYDOWN ⟨65, 16⟩).lookups = [] ∧
    (LowLevelKeyboardProc
        { Engine.initial (storeBytes (fun _ => 0) [65, 0, 1, 66, 0]) with
          g_KeyTranslationTable := fun v => if v = 65 then [0] else [] }
        ⟨false, false, false⟩ HC_ACTION WM_KEYDOWN ⟨65, 16⟩).threads = [] ∧
    (LowLevelKeyboardProc
        { Engine.initial (storeBytes (fun _ => 0) [65, 0, 1, 66, 0]) with
          g_KeyTranslationTable := fun v => if v = 65 then [0] else [] }
        ⟨false, false, false⟩ HC_ACTION WM_KEYDOWN ⟨65, 16⟩).ret = HookReturn.CallNextHookEx :=
  ⟨by decide,
    C10_injected_events_are_never_matched
      { Engine.initial (storeBytes (fun _ => 0) [65, 0, 1, 66, 0]) with
        g_KeyTranslationTable := fun v => if v = 65 then [0] else [] }
      ⟨false, false, false⟩ HC_ACTION WM_KEYDOWN ⟨65, 16⟩ (by decide)⟩

/-! ## The claims about the shutdown -/

theorem clearTable_idem (table : Nat → List Nat) :
    clearTable (clearTable table) = clearTable table := by
  funext nIdx
  by_cases h : nIdx < HASH_TABLE_SIZE <;> simp [clearTable, h]

theorem clearTable_nil : clearTable (fun _ => []) = fun _ => [] := by
  funext nIdx
  by_cases h : nIdx < HASH_TABLE_SIZE <;> simp [clearTable, h]

theorem shutdown_items_nil (table : Nat → List Nat) (l : List Nat)
    (h : ∀ nIdx ∈ l, table nIdx = []) :
    l.foldr (fun nIdx rest => (table nIdx).map (Effect.freeItem nIdx) ++ rest) [] = [] := by
  induction l with
  | nil => rfl
  | cons a l ih =>
    simp only [List.foldr_cons]
    rw [h a (List.mem_cons_self _ _), ih (fun i hi => h i (List.mem_cons_of_mem _ hi))]
    rfl

theorem shutdown_items_no_unhook (table : Nat → List Nat) (hook : Nat) (l : List Nat) :
    Effect.UnhookWindowsHookEx hook ∉
      l.foldr (fun nIdx rest => (table nIdx).map (Effect.freeItem nIdx) ++ rest) [] := by
  induction l with
  | nil => simp
  | cons a l ih =>
    simp only [List.foldr_cons, List.mem_append, List.mem_map, not_or]
    refine ⟨?_, ih⟩
    rintro ⟨_, _, hx⟩
    cases hx

/-- With a `NULL` hook handle `ShutdownCapture` does not call
`UnhookWindowsHookEx`. -/
theorem ShutdownCapture_no_unhook (e : Engine) (h : e.g_hookMain = none) (hook : Nat) :
    Effect.UnhookWindowsHookEx hook ∉ (ShutdownCapture e).2 := by
  simp only [ShutdownCapture, h, List.mem_append, not_or]
  refine ⟨⟨by simp, ?_⟩, shutdown_items_no_unhook _ hook _⟩
  cases e.g_KeyTranslationHead <;> simp

/-- The engine `ShutdownCapture` leaves: both pointers `NULL` and the 256
buckets empty. -/
theorem ShutdownCapture_unloaded (e : Engine) :
    (ShutdownCapture e).1.g_KeyTranslationHead = none ∧
    (ShutdownCapture e).1.g_KeyTranslationEnd = none ∧
    ∀ nIdx, nIdx < 256 → (ShutdownCapture e).1.g_KeyTranslationTable nIdx = [] := by
  refine ⟨rfl, rfl, fun nIdx h => ?_⟩
  simp [ShutdownCapture, clearTable, HASH_TABLE_SIZE, h]

/-- A load that got as far as opening the file and does not return
`HOOK_CREATION_SUCCESS` has been through `ShutdownCapture`: both pointers are
`NULL` and the 256 buckets are empty. -/
theorem load_failure_after_open_unloads (e : Engine) (os : OsAnswers) (out : LoadOutcome)
    (h : LoadAndCaptureFromFile e os = some out)
    (hs : out.status ≠ HOOK_RESULT.HOOK_CREATION_SUCCESS)
    (h1 : os.nConvertedCount ≠ 0) (h2 : os.fileExists = true) (h3 : os.fileOpens = true) :
    out.engine.g_KeyTranslationHead = none ∧ out.engine.g_KeyTranslationEnd = none ∧
    ∀ nIdx, nIdx < 256 → out.engine.g_KeyTranslationTable nIdx = [] := by
  unfold LoadAndCaptureFromFile at h
  rw [if_neg h1, if_neg (by simp [h2]), if_neg (by simp [h3])] at h
  simp only at h
  split at h
  · simp only [Option.some.injEq] at h
    subst h
    exact ShutdownCapture_unloaded _
  · split at h
    · simp only [Option.some.injEq] at h
      subst h
      simp only [finishLoad, Bool.false_eq_true, if_false]
      exact ShutdownCapture_unloaded _
    · split at h
      · cases h
      · rename_i w _
        simp only [Option.some.injEq] at h
        subst h
        by_cases hx : w.exit = WalkExit.atEnd
        · cases hh : os.hookResult with
          | none =>
            simp only [afterWalk, hx, finishLoad, hh, if_true]
            exact ShutdownCapture_unloaded _
          | some hook =>
            exact absurd ((afterWalk_atEnd _ os w hx).2.2.1 hook hh).1 hs
        · rw [(afterWalk_not_atEnd _ os w hx).2.2.1]
          exact ShutdownCapture_unloaded _

/-- C11 (what the code does): after `LoadAndCaptureFromFile` has returned
`HOOK_CREATION_SUCCESS` on the never-loaded engine, having called
`SetWindowsHookEx` and received the handle `hook`, the global `g_hookMain` is
still `NULL`, and the following `ShutdownCapture` does not call
`UnhookWindowsHookEx` at all. -/
theorem C11_shutdown_after_load_does_not_unhook (memory : Nat → Byte) (hook : Nat) :
    ∃ out, LoadAndCaptureFromFile (Engine.initial memory)
        (OsAnswers.ofBuffer [65, 0, 1, 66, 0] (some hook)) = some out ∧
      out.status = HOOK_RESULT.HOOK_CREATION_SUCCESS ∧
      out.effects = [Effect.SetWindowsHookEx (some hook)] ∧
      out.engine.g_hookMain = none ∧
      (ShutdownCapture out.engine).1.g_hookMain = none ∧
      ∀ h, Effect.UnhookWindowsHookEx h ∉ (ShutdownCapture out.engine).2 := by
  obtain ⟨w, hload, i1, _⟩ := load_records (Engine.initial memory)
    (OsAnswers.ofBuffer [65, 0, 1, 66, 0] (some hook)) [⟨⟨65, 0⟩, [⟨66, 0⟩]⟩]
    (by simp) (by decide)
    ⟨Nat.succ_ne_zero 0, rfl, rfl, rfl, (by decide : (5 : Nat) < 4294967296), rfl, rfl⟩
  obtain ⟨hs, heng, hfx⟩ := (afterWalk_atEnd ((Engine.initial memory).loading
    (encodeRecords [⟨⟨65, 0⟩, [⟨66, 0⟩]⟩])) (OsAnswers.ofBuffer [65, 0, 1, 66, 0] (some hook))
    w i1).2.2.1 hook rfl
  refine ⟨_, hload, hs, hfx, ?_, rfl, ?_⟩
  · rw [heng]; rfl
  · intro h
    apply ShutdownCapture_no_unhook
    rw [heng]; rfl

/-- C12 (what the code does): on an engine in which the file `41 00 01 42 00`
is loaded, a `LoadAndCaptureFromFile` for a path that names no file returns
`INPUT_MISSING` and leaves the configuration in place: the buffer pointer and
the end pointer are not `NULL` and bucket `0x41` still holds its record. -/
theorem C12_missing_file_keeps_loaded_state :
    ∃ out1 out2,
      LoadAndCaptureFromFile (Engine.initial (fun _ => 0))
        (OsAnswers.ofBuffer [65, 0, 1, 66, 0] (some 1)) = some out1 ∧
      out1.status = HOOK_RESULT.HOOK_CREATION_SUCCESS ∧
      LoadAndCaptureFromFile out1.engine
        { nConvertedCount := 1, fileExists := false, fileOpens := false, fileBytes := [],
          readFileOk := false, dwBytesRead := 0, hookResult := none } = some out2 ∧
      out2.status = HOOK_RESULT.INPUT_MISSING ∧
      out2.status ≠ HOOK_RESULT.HOOK_CREATION_SUCCESS ∧
      out2.engine.g_KeyTranslationHead = some 0 ∧
      out2.engine.g_KeyTranslationEnd = some 5 ∧
      out2.engine.g_KeyTranslationTable 65 = [0] :=
  ⟨_, _, rfl, rfl, rfl, rfl, by decide, rfl, rfl, rfl⟩

/-- C13: for every engine state, a second `ShutdownCapture` leaves the state
of the first one (hook handle, buffer pointer and end pointer `NULL`, the 256
buckets empty) and makes no call (nothing is unhooked, nothing is freed); and
on the never-loaded engine a `ShutdownCapture` changes nothing and makes no
call. -/
theorem C13_shutdown_is_idempotent (s : Engine) :
    ShutdownCapture (ShutdownCapture s).1 = ((ShutdownCapture s).1, []) ∧
    (ShutdownCapture s).1.g_hookMain = none ∧
    (ShutdownCapture s).1.g_KeyTranslationHead = none ∧
    (ShutdownCapture s).1.g_KeyTranslationEnd = none ∧
    (∀ nIdx, nIdx < 256 → (ShutdownCapture s).1.g_KeyTranslationTable nIdx = []) ∧
    (∀ memory, ShutdownCapture (Engine.initial memory) = (Engine.initial memory, [])) := by
  have hitems : ∀ table : Nat → List Nat, (List.range HASH_TABLE_SIZE).foldr
      (fun nIdx rest => (clearTable table nIdx).map (Effect.freeItem nIdx) ++ rest) [] = [] := by
    intro table
    apply shutdown_items_nil
    intro nIdx hmem
    have : nIdx < HASH_TABLE_SIZE := List.mem_range.mp hmem
    simp [clearTable, this]
  refine ⟨?_, rfl, rfl, rfl, ?_, ?_⟩
  · simp only [ShutdownCapture, hitems, clearTable_idem, List.append_nil]
  · intro nIdx h
    simp [ShutdownCapture, clearTable, HASH_TABLE_SIZE, h]
  · intro memory
    have h0 := hitems (fun _ => [])
    rw [clearTable_nil] at h0
    simp only [ShutdownCapture, Engine.initial, h0, clearTable_nil, List.append_nil]

/-! ## The claims about the input thread -/

/-- The loop of `SendInputThread` over encoded output actions that stand in
memory: one call per action, in order. -/
theorem sendLoop_outputs (memory : Nat → Byte) (lim : Nat) :
    ∀ (ks : List KeyDefinition) (p fuel : Nat), Holds memory lim p (encodeOutputs ks) →
      p + 2 * ks.length ≤ lim → ks.length < fuel →
      sendLoop memory (p + 2 * ks.length) fuel p = some (ks.map outputCall) := by
  intro ks
  induction ks with
  | nil =>
    intro p fuel _ _ hf
    cases fuel with
    | zero => omega
    | succ fuel => simp [sendLoop]
  | cons k ks ih =>
    intro p fuel h hl hf
    simp only [List.length_cons] at hl hf
    cases fuel with
    | zero => omega
    | succ fuel =>
      have hk := h.left (a := encodeKeyDefinition k)
      have e0 := hk 0 k.nVkKey (by omega) rfl
      have e1 := hk 1 k.nFlags (by omega) rfl
      rw [Nat.add_zero] at e0
      have hd : readKeyDefinition memory p = k := by
        simp only [readKeyDefinition, e0, e1]
      have hr := ih (p + 2) fuel
        (by simpa [encodeKeyDefinition] using h.right (a := encodeKeyDefinition k))
        (by omega) (by omega)
      have hend : p + 2 + 2 * ks.length = p + 2 * (ks.length + 1) := by omega
      rw [hend] at hr
      have hlt : p < p + 2 * (ks.length + 1) := by omega
      simp only [sendLoop, List.length_cons, hlt, if_true, hd, sizeofKeyDefinition, hr,
        List.map_cons, outputCall]

/-- The first output action of a record that stands in memory, read through
the pointer `pItem + sizeof(KeyTranslation)`. -/
theorem first_output_of_holds {memory : Nat → Byte} {lim o : Nat} {r : TranslationRecord}
    {k : KeyDefinition} {ks : List KeyDefinition}
    (h : Holds memory lim o (encodeRecord r)) (hout : r.outputs = k :: ks)
    (hl : o + (encodeRecord r).length ≤ lim) :
    readKeyDefinition memory (o + sizeofKeyTranslation) = k := by
  rw [encodeRecord_length, hout] at hl
  simp only [List.length_cons] at hl
  have e3 := h 3 k.nVkKey (by omega)
    (by simp [encodeRecord, encodeKeyDefinition, hout, encodeOutputs])
  have e4 := h 4 k.nFlags (by omega)
    (by simp [encodeRecord, encodeKeyDefinition, hout, encodeOutputs])
  simp only [readKeyDefinition, sizeofKeyTranslation]
  rw [e3, show o + 3 + 1 = o + 4 from rfl, e4]

/-- C14: for every translation record whose first output action has the
DoNothing flag set, `SendInputThread` returns without making a call: no
`SendTriggerEndInputKeys`, no key or mouse injection and no `Sleep`, whatever
the other output actions of the record are. -/
theorem C14_do_nothing_first_makes_no_call (memory : Nat → Byte) (o : Nat)
    (r : TranslationRecord) (k : KeyDefinition) (ks : List KeyDefinition)
    (h : Holds memory (o + (encodeRecord r).length) o (encodeRecord r))
    (hout : r.outputs = k :: ks) (hk : k.bDoNothing = true) :
    SendInputThread memory o = some [] := by
  have hfirst := first_output_of_holds h hout (Nat.le_refl _)
  simp [SendInputThread, hfirst, hk]

/-- C14, at the record `A` to `(DoNothing) C` stored at address 0. -/
theorem C14_do_nothing_first_makes_no_call_witness :
    SendInputThread (storeBytes (fun _ => 0) [65, 0, 2, 66, 8, 67, 0]) 0 = some [] :=
  C14_do_nothing_first_makes_no_call (storeBytes (fun _ => 0) [65, 0, 2, 66, 8, 67, 0]) 0
    ⟨⟨65, 0⟩, [⟨66, 8⟩, ⟨67, 0⟩]⟩ ⟨66, 8⟩ [⟨67, 0⟩]
    (holds_storeBytes (fun _ => 0) [65, 0, 2, 66, 8, 67, 0] 7) rfl (by decide)

/-- C15: for every translation record with `n >= 1` output actions (at most
255) whose first action is not DoNothing, the calls of `SendInputThread` are
exactly: one `SendTriggerEndInputKeys` on the trigger of the record, followed
by `n` calls, the i-th made for the i-th output action in file order:
`SendInputMouse` if the action has `bMouseOut`, otherwise `Sleep` of
`1000 * nVkKey` milliseconds if it has `bDelay`, otherwise `SendInputKeys`
(also for an action after the first that carries DoNothing). -/
theorem C15_thread_replays_outputs_in_order (memory : Nat → Byte) (o : Nat)
    (r : TranslationRecord) (k : KeyDefinition) (ks : List KeyDefinition)
    (h : Holds memory (o + (encodeRecord r).length) o (encodeRecord r))
    (hwf : r.wellFormed) (hout : r.outputs = k :: ks) (hk : k.bDoNothing = false) :
    SendInputThread memory o =
      some (InputEffect.SendTriggerEndInputKeys r.trigger ::
        r.outputs.map (fun a =>
          if a.bMouseOut = true then InputEffect.SendInputMouse a
          else if a.bDelay = true then InputEffect.Sleep (1000 * a.nVkKey.val)
          else InputEffect.SendInputKeys a)) ∧
    ∀ trace, SendInputThread memory o = some trace → trace.length = r.outputs.length + 1 := by
  have hfirst := first_output_of_holds h hout (Nat.le_refl _)
  have h0 : Holds memory (o + (encodeRecord r).length) o (encodeRecord r ++ []) := by
    simpa using h
  obtain ⟨hrec, hn⟩ := recordAt_of_holds h0 hwf (Nat.le_refl _)
  have htrig : kDefAt memory o = r.trigger := congrArg TranslationRecord.trigger hrec
  have hlen := encodeRecord_length r
  have hnext : nextKey memory o = o + 3 + 2 * r.outputs.length := by
    rw [nextKey_eq]
    have : (memory (o + 2)).val = r.outputs.length := hn
    rw [this]
  have hout2 : Holds memory (o + (encodeRecord r).length) (o + 3) (encodeOutputs r.outputs) := by
    have := @Holds.right memory (o + (encodeRecord r).length) o
      (encodeKeyDefinition r.trigger ++
        [(⟨r.outputs.length % 256, Nat.mod_lt _ (by decide)⟩ : Byte)])
      (encodeOutputs r.outputs) (by simpa [encodeRecord] using h)
    simpa [encodeKeyDefinition] using this
  have hloop := sendLoop_outputs memory (o + (encodeRecord r).length) r.outputs (o + 3)
    (r.outputs.length + 1) hout2 (by omega) (by omega)
  have hmain : SendInputThread memory o =
      some (InputEffect.SendTriggerEndInputKeys r.trigger :: r.outputs.map outputCall) := by
    have hfirst3 : readKeyDefinition memory (o + 3) = k := hfirst
    simp only [SendInputThread, sizeofKeyTranslation, hfirst3, hk, hnext, hn, htrig, hloop]
    simp
  refine ⟨?_, fun trace ht => ?_⟩
  · rw [hmain]; rfl
  · rw [hmain] at ht
    simp only [Option.some.injEq] at ht
    rw [← ht]; simp

/-- C15, at the record `A` to `mouse`, `delay 2`, `(DoNothing) C` stored at
address 0. -/
theorem C15_thread_replays_outputs_in_order_witness :
    SendInputThread (storeBytes (fun _ => 0) [65, 0, 3, 66, 16, 2, 32, 67, 8]) 0 =
      some [InputEffect.SendTriggerEndInputKeys ⟨65, 0⟩, InputEffect.SendInputMouse ⟨66, 16⟩,
        InputEffect.Sleep 2000, InputEffect.SendInputKeys ⟨67, 8⟩] :=
  (C15_thread_replays_outputs_in_order (storeBytes (fun _ => 0) [65, 0, 3, 66, 16, 2, 32, 67, 8])
    0 ⟨⟨65, 0⟩, [⟨66, 16⟩, ⟨2, 32⟩, ⟨67, 8⟩]⟩ ⟨66, 16⟩ [⟨2, 32⟩, ⟨67, 8⟩]
    (holds_storeBytes (fun _ => 0) [65, 0, 3, 66, 16, 2, 32, 67, 8] 9) (by decide) rfl
    (by decide)).1

/-- C16: for every remap entry `e` and output configuration `o`: if `o` is
toggle-typed, `IsButtonDownRequired e o` is the negation of `e.bToggled` and
`IsButtonUpRequired e o` is `e.bToggled`, so exactly one of the two holds;
otherwise they are `o.bDown` and `o.bUp`, whatever `e.bToggled` is. -/
theorem C16_down_up_intent (e : RemapEntry) (o : OutputConfig) :
    (o.outputFlag.bToggle = true →
      IsButtonDownRequired e o = !e.bToggled ∧ IsButtonUpRequired e o = e.bToggled ∧
      IsButtonDownRequired e o ≠ IsButtonUpRequired e o) ∧
    (o.outputFlag.bToggle = false →
      IsButtonDownRequired e o = o.outputFlag.bDown ∧
      IsButtonUpRequired e o = o.outputFlag.bUp ∧
      ∀ e2 : RemapEntry, IsButtonDownRequired e2 o = IsButtonDownRequired e o ∧
        IsButtonUpRequired e2 o = IsButtonUpRequired e o) := by
  constructor
  · intro h
    simp only [IsButtonDownRequired, IsButtonUpRequired, h, if_true]
    cases e.bToggled <;> simp
  · intro h
    simp [IsButtonDownRequired, IsButtonUpRequired, h]

/-! ## The shape of the dispatch table -/

theorem layout_ge (rs : List TranslationRecord) :
    ∀ (o : Nat) (x : Nat × TranslationRecord), x ∈ layout o rs → o ≤ x.1 := by
  induction rs with
  | nil => intro o x hx; simp [layout] at hx
  | cons a rest ih =>
    intro o x hx
    simp only [layout, List.mem_cons] at hx
    rcases hx with hx | hx
    · subst hx; exact Nat.le_refl _
    · have := ih _ x hx
      omega

theorem bucketOf_ge (o : Nat) (rs : List TranslationRecord) (v q : Nat)
    (h : q ∈ bucketOf o rs v) : o ≤ q := by
  obtain ⟨r, hr, _⟩ := (mem_bucketOf o rs v q).mp h
  exact layout_ge rs o (q, r) hr

/-- Every record of the file hangs exactly once in the bucket of its key code
and in no other bucket. -/
theorem bucketOf_count (rs : List TranslationRecord) :
    ∀ (o : Nat) (x : Nat × TranslationRecord), x ∈ layout o rs → ∀ v,
      (bucketOf o rs v).count x.1 = if x.2.trigger.nVkKey.val = v then 1 else 0 := by
  induction rs with
  | nil => intro o x hx; simp [layout] at hx
  | cons a rest ih =>
    intro o x hx v
    have hpos : 0 < (encodeRecord a).length := by rw [encodeRecord_length]; omega
    rw [bucketOf_cons, List.count_append]
    simp only [layout, List.mem_cons] at hx
    rcases hx with hx | hx
    · subst hx
      have hz : (bucketOf (o + (encodeRecord a).length) rest v).count o = 0 := by
        apply List.count_eq_zero_of_not_mem
        intro hm
        have := bucketOf_ge _ _ _ _ hm
        omega
      rw [hz]
      by_cases hv : a.trigger.nVkKey.val = v <;> simp [hv]
    · have hge := layout_ge rest _ x hx
      have hne : x.1 ≠ o := by omega
      have hz : (if a.trigger.nVkKey.val = v then [o] else []).count x.1 = 0 := by
        apply List.count_eq_zero_of_not_mem
        by_cases hv : a.trigger.nVkKey.val = v <;> simp [hv, hne]
      rw [hz, ih _ x hx v, Nat.zero_add]

/-- The chains of the 256 buckets together have one node per record. -/
theorem bucketOf_total (rs : List TranslationRecord) :
    ∀ o, Finset.sum (Finset.range 256) (fun v => (bucketOf o rs v).length) = rs.length := by
  induction rs with
  | nil => intro o; simp [bucketOf, layout]
  | cons a rest ih =>
    intro o
    have hlt : a.trigger.nVkKey.val ∈ Finset.range 256 :=
      Finset.mem_range.mpr a.trigger.nVkKey.isLt
    have hfun : (fun v => (bucketOf o (a :: rest) v).length) =
        fun v => (if a.trigger.nVkKey.val = v then 1 else 0) +
          (bucketOf (o + (encodeRecord a).length) rest v).length := by
      funext v
      rw [bucketOf_cons, List.length_append]
      by_cases hv : a.trigger.nVkKey.val = v <;> simp [hv]
    rw [hfun, Finset.sum_add_distrib, ih, Finset.sum_ite_eq, if_pos hlt, List.length_cons]
    omega

/-- The records found behind the pointers of a bucket are the records of the
file with the key code of the bucket, in file order. -/
theorem bucketOf_records (memory : Nat → Byte) (rs : List TranslationRecord) (o v : Nat)
    (hrec : ∀ x ∈ layout o rs, recordAt memory x.1 = x.2) :
    (bucketOf o rs v).map (recordAt memory) =
      rs.filter (fun r => decide (r.trigger.nVkKey.val = v)) := by
  have h1 : (bucketOf o rs v).map (recordAt memory) =
      ((layout o rs).filter (fun x => decide (x.2.trigger.nVkKey.val = v))).map Prod.snd := by
    rw [bucketOf, List.map_map]
    apply List.map_congr_left
    intro x hx
    exact hrec x (List.mem_filter.mp hx).1
  rw [h1]
  conv_rhs => rw [← layout_map_snd rs o, List.filter_map]
  rfl

/-- C17: after a load that passes validation on the encoding of the records
`rs`, for every key code `v` in 0..255 the chain of bucket `v` is exactly the
list of the records of `rs` whose trigger has key code `v`, in file order;
every record of `rs` hangs exactly once in the bucket of its key code and in
no other bucket; and the chains have `length rs` nodes in total. -/
theorem C17_dispatch_index_shape (e : Engine) (os : OsAnswers) (rs : List TranslationRecord)
    (hne : rs ≠ []) (hwf : ∀ r ∈ rs, r.wellFormed) (hd : os.delivers (encodeRecords rs)) :
    ∃ out w, LoadAndCaptureFromFile e os = some out ∧ out.walk = some w ∧
      out.status.passedValidation ∧
      (∀ v, v < 256 →
        w.table v = bucketOf 0 rs v ∧
        (w.table v).map (recordAt (storeBytes e.memory (encodeRecords rs))) =
          rs.filter (fun r => decide (r.trigger.nVkKey.val = v))) ∧
      (∀ x ∈ layout 0 rs, ∀ v, v < 256 →
        (w.table v).count x.1 = if x.2.trigger.nVkKey.val = v then 1 else 0) ∧
      Finset.sum (Finset.range 256) (fun v => (w.table v).length) = rs.length ∧
      (∀ hook, os.hookResult = some hook → out.engine.g_KeyTranslationTable = w.table) := by
  obtain ⟨w, hload, i1, _, _, i4, i5⟩ := load_records e os rs hne hwf hd
  have ha := afterWalk_atEnd (e.loading (encodeRecords rs)) os w i1
  refine ⟨_, w, hload, ha.2.1, ha.1, fun v hv => ⟨i4 v hv, ?_⟩, fun x hx v hv => ?_, ?_,
    fun hook hh => ?_⟩
  · rw [i4 v hv]
    exact bucketOf_records _ rs 0 v (fun x hx => (i5 x hx).1)
  · rw [i4 v hv]
    exact bucketOf_count rs 0 x hx v
  · rw [← bucketOf_total rs 0]
    apply Finset.sum_congr rfl
    intro v hv
    rw [i4 v (Finset.mem_range.mp hv)]
  · rw [(ha.2.2.1 hook hh).2.1]

/-- C17, at a file that holds plain `A`, `F` and `Alt+A` in this order. -/
theorem C17_dispatch_index_shape_witness :
    ∃ out w, LoadAndCaptureFromFile (Engine.initial (fun _ => 0))
        (OsAnswers.ofBuffer (encodeRecords
          [⟨⟨65, 0⟩, [⟨66, 0⟩, ⟨66, 0⟩]⟩, ⟨⟨70, 0⟩, [⟨71, 0⟩]⟩, ⟨⟨65, 1⟩, [⟨67, 0⟩]⟩])
          (some 1)) = some out ∧
      out.walk = some w ∧ out.status.passedValidation ∧
      (∀ v, v < 256 →
        w.table v = bucketOf 0
          [⟨⟨65, 0⟩, [⟨66, 0⟩, ⟨66, 0⟩]⟩, ⟨⟨70, 0⟩, [⟨71, 0⟩]⟩, ⟨⟨65, 1⟩, [⟨67, 0⟩]⟩] v ∧
        (w.table v).map (recordAt (storeBytes (Engine.initial (fun _ => 0)).memory
          (encodeRecords
            [⟨⟨65, 0⟩, [⟨66, 0⟩, ⟨66, 0⟩]⟩, ⟨⟨70, 0⟩, [⟨71, 0⟩]⟩, ⟨⟨65, 1⟩, [⟨67, 0⟩]⟩]))) =
          ([⟨⟨65, 0⟩, [⟨66, 0⟩, ⟨66, 0⟩]⟩, ⟨⟨70, 0⟩, [⟨71, 0⟩]⟩, ⟨⟨65, 1⟩, [⟨67, 0⟩]⟩] :
            List TranslationRecord).filter (fun r => decide (r.trigger.nVkKey.val = v))) ∧
      (∀ x ∈ layout 0
          [⟨⟨65, 0⟩, [⟨66, 0⟩, ⟨66, 0⟩]⟩, ⟨⟨70, 0⟩, [⟨71, 0⟩]⟩, ⟨⟨65, 1⟩, [⟨67, 0⟩]⟩],
        ∀ v, v < 256 →
          (w.table v).count x.1 = if x.2.trigger.nVkKey.val = v then 1 else 0) ∧
      Finset.sum (Finset.range 256) (fun v => (w.table v).length) = 3 ∧
      (∀ hook, (OsAnswers.ofBuffer (encodeRecords
          [⟨⟨65, 0⟩, [⟨66, 0⟩, ⟨66, 0⟩]⟩, ⟨⟨70, 0⟩, [⟨71, 0⟩]⟩, ⟨⟨65, 1⟩, [⟨67, 0⟩]⟩])
          (some 1)).hookResult = some hook → out.engine.g_KeyTranslationTable = w.table) :=
  C17_dispatch_index_shape (Engine.initial (fun _ => 0))
    (OsAnswers.ofBuffer (encodeRecords
      [⟨⟨65, 0⟩, [⟨66, 0⟩, ⟨66, 0⟩]⟩, ⟨⟨70, 0⟩, [⟨71, 0⟩]⟩, ⟨⟨65, 1⟩, [⟨67, 0⟩]⟩]) (some 1))
    [⟨⟨65, 0⟩, [⟨66, 0⟩, ⟨66, 0⟩]⟩, ⟨⟨70, 0⟩, [⟨71, 0⟩]⟩, ⟨⟨65, 1⟩, [⟨67, 0⟩]⟩]
    (by decide) (by decide) (by decide)

/-! ## The start of the input thread -/

/-- C18: for every dispatch table and event, `LowLevelKeyboardProc` creates
the `SendInputThread` exactly once, for the first matching record of the
bucket, when the event is not injected, has `HC_ACTION`, is a key down
(`WM_KEYDOWN` or `WM_SYSKEYDOWN`) and a record of the bucket matches; in every
other case it creates no thread; in particular a key up (`WM_KEYUP` or
`WM_SYSKEYUP`) of a configured trigger is answered with `1` without a thread
being created. -/
theorem C18_thread_started_only_by_matched_key_down (e : Engine) (keys : KeyState)
    (nCode : Int) (wParam : Nat) (pHook : KBDLLHOOKSTRUCT) :
    ((pHook.flags &&& LLKHF_INJECTED = 0 ∧ nCode = HC_ACTION ∧
        (wParam = WM_KEYDOWN ∨ wParam = WM_SYSKEYDOWN) ∧
        ∃ q ∈ e.g_KeyTranslationTable pHook.vkCode, chordMatches e.memory keys q) →
      ∃ pre p post, e.g_KeyTranslationTable pHook.vkCode = pre ++ p :: post ∧
        chordMatches e.memory keys p ∧ (∀ q ∈ pre, ¬ chordMatches e.memory keys q) ∧
        (LowLevelKeyboardProc e keys nCode wParam pHook).threads = [p]) ∧
    (¬ (pHook.flags &&& LLKHF_INJECTED = 0 ∧ nCode = HC_ACTION ∧
        (wParam = WM_KEYDOWN ∨ wParam = WM_SYSKEYDOWN) ∧
        ∃ q ∈ e.g_KeyTranslationTable pHook.vkCode, chordMatches e.memory keys q) →
      (LowLevelKeyboardProc e keys nCode wParam pHook).threads = []) ∧
    ((pHook.flags &&& LLKHF_INJECTED = 0 ∧ nCode = HC_ACTION ∧
        (wParam = WM_KEYUP ∨ wParam = WM_SYSKEYUP) ∧
        ∃ q ∈ e.g_KeyTranslationTable pHook.vkCode, chordMatches e.memory keys q) →
      (LowLevelKeyboardProc e keys nCode wParam pHook).ret = HookReturn.one ∧
      (LowLevelKeyboardProc e keys nCode wParam pHook).threads = []) := by
  refine ⟨?_, ?_, ?_⟩
  · rintro ⟨hinj, hnc, hdown, q, hq, hm⟩
    subst hnc
    rw [proc_keyDown e keys wParam pHook hdown hinj]
    cases hs : scanKeyDown e.memory keys.bAlt keys.bControl keys.bShift
        (e.g_KeyTranslationTable pHook.vkCode) with
    | none => exact absurd hm ((scanKeyDown_eq_none_iff _ _ _).mp hs q hq)
    | some p =>
      obtain ⟨pre, post, heq, hp, hpre⟩ := (scanKeyDown_eq_some_iff _ _ _ p).mp hs
      exact ⟨pre, p, post, heq, hp, hpre, rfl⟩
  · intro hno
    by_cases hinj : pHook.flags &&& LLKHF_INJECTED = 0
    · by_cases hnc : nCode = HC_ACTION
      · subst hnc
        by_cases hdown : wParam = WM_KEYDOWN ∨ wParam = WM_SYSKEYDOWN
        · rw [proc_keyDown e keys wParam pHook hdown hinj]
          cases hs : scanKeyDown e.memory keys.bAlt keys.bControl keys.bShift
              (e.g_KeyTranslationTable pHook.vkCode) with
          | none => rfl
          | some p =>
            obtain ⟨pre, post, heq, hp, _⟩ := (scanKeyDown_eq_some_iff _ _ _ p).mp hs
            exact absurd ⟨hinj, rfl, hdown, p, by rw [heq]; simp, hp⟩ hno
        · by_cases hup : wParam = WM_KEYUP ∨ wParam = WM_SYSKEYUP
          · rw [proc_keyUp e keys wParam pHook hup hinj]
            cases scanKeyUp e.memory keys.bAlt keys.bControl keys.bShift
              (e.g_KeyTranslationTable pHook.vkCode) <;> rfl
          · simp [LowLevelKeyboardProc, hinj, hdown, hup]
      · have hnc2 : ¬ HC_ACTION = nCode := fun h => hnc h.symm
        simp [LowLevelKeyboardProc, hinj, hnc2]
    · simp [LowLevelKeyboardProc, hinj]
  · rintro ⟨hinj, hnc, hup, q, hq, hm⟩
    subst hnc
    rw [proc_keyUp e keys wParam pHook hup hinj]
    have hs : scanKeyUp e.memory keys.bAlt keys.bControl keys.bShift
        (e.g_KeyTranslationTable pHook.vkCode) = true :=
      (scanKeyUp_eq_true_iff _ _ _).mpr ⟨q, hq, hm⟩
    rw [hs]
    exact ⟨rfl, rfl⟩

/-! ## Reads and termination of the record loop -/

/-- C19 (what the code does): the file `41 00 01 42 00` cut to its first byte
is a truncation at an offset that is not a record boundary; the record loop
visits the record at offset 0 and reads its count byte at offset 2, which is
not below the length 1 of the block, whatever the memory behind the block
holds; the load then returns `INPUT_BAD`. -/
theorem C19_truncated_walk_reads_past_the_block (memory : Nat → Byte) :
    (0 < 1 ∧ 1 < (encodeRecords [⟨⟨65, 0⟩, [⟨66, 0⟩]⟩]).length ∧
      1 ∉ startOffsets 0 [⟨⟨65, 0⟩, [⟨66, 0⟩]⟩]) ∧
    ∃ out w, LoadAndCaptureFromFile (Engine.initial memory)
        (OsAnswers.ofBuffer ((encodeRecords [⟨⟨65, 0⟩, [⟨66, 0⟩]⟩]).take 1) (some 1)) =
          some out ∧
      out.walk = some w ∧ out.status = HOOK_RESULT.INPUT_BAD ∧ w.visited = [0] ∧
      2 ∈ readsOf (storeBytes memory ((encodeRecords [⟨⟨65, 0⟩, [⟨66, 0⟩]⟩]).take 1))
        w.visited ∧
      ¬ 2 < ((encodeRecords [⟨⟨65, 0⟩, [⟨66, 0⟩]⟩]).take 1).length := by
  refine ⟨by decide, ?_⟩
  have hb : (encodeRecords [⟨⟨65, 0⟩, [⟨66, 0⟩]⟩]).take 1 = [65] := rfl
  rw [hb]
  obtain ⟨w, hw, hload⟩ := load_of_delivers (Engine.initial memory)
    (OsAnswers.ofBuffer [65] (some 1)) [65]
    ⟨Nat.succ_ne_zero 0, rfl, rfl, rfl, (by decide : (1 : Nat) < 4294967296), rfl, rfl⟩
    (by simp)
  have hvis : w.visited = [0] ∧ w.exit ≠ WalkExit.atEnd := by
    have hn := nextKey_eq (storeBytes (Engine.initial memory).memory [65]) 0
    simp only [List.length_singleton, walkLoop] at hw
    by_cases hz : nKDefOutputAt (storeBytes (Engine.initial memory).memory [65]) 0 = 0
    · simp only [hz, if_true, Option.some.injEq] at hw
      subst hw
      exact ⟨rfl, by simp⟩
    · have hgt : nextKey (storeBytes (Engine.initial memory).memory [65]) 0 > 1 := by omega
      simp only [hz, if_false, hgt, if_true, Option.some.injEq] at hw
      subst hw
      exact ⟨rfl, by simp⟩
  have hbad := afterWalk_not_atEnd ((Engine.initial memory).loading [65])
    (OsAnswers.ofBuffer [65] (some 1)) w hvis.2
  refine ⟨_, w, hload, hbad.2.1, hbad.1, hvis.1, ?_, by decide⟩
  rw [hvis.1]
  simp only [readsOf, readsAt, sizeofKeyDefinition, List.append_nil]
  by_cases hz : nKDefOutputAt (storeBytes memory [65]) 0 = 0 <;> simp [hz]

/-- The visits of the record loop: at most one for every five bytes between
`pKey` and the end of the block. -/
theorem walkLoop_visited_bound (memory : Nat → Byte) (pEnd : Nat) :
    ∀ (fuel pKey : Nat) (table : Nat → List Nat) (w : Walk), pKey < pEnd →
      walkLoop memory pEnd fuel pKey table = some w →
      5 * w.visited.length ≤ pEnd - pKey + 4 := by
  intro fuel
  induction fuel with
  | zero => intro pKey table w _ h; simp [walkLoop] at h
  | succ fuel ih =>
    intro pKey table w hlt h
    have hn := nextKey_eq memory pKey
    unfold walkLoop at h
    by_cases hz : nKDefOutputAt memory pKey = 0
    · simp only [hz, if_true, Option.some.injEq] at h
      subst h
      simp only [List.length_singleton]; omega
    · have hz2 : (memory (pKey + 2)).val ≠ 0 := hz
      simp only [hz, if_false] at h
      by_cases hgt : nextKey memory pKey > pEnd
      · simp only [hgt, if_true, Option.some.injEq] at h
        subst h
        simp only [List.length_singleton]; omega
      · simp only [hgt, if_false] at h
        by_cases heq : nextKey memory pKey = pEnd
        · simp only [heq, if_true, Option.some.injEq] at h
          subst h
          simp only [List.length_singleton]; omega
        · simp only [heq, if_false] at h
          cases hrec : walkLoop memory pEnd fuel (nextKey memory pKey)
              (appendItem table (kDefAt memory pKey).nVkKey.val pKey) with
          | none => simp [hrec] at h
          | some w1 =>
            simp only [hrec, Option.some.injEq] at h
            subst h
            have := ih _ _ w1 (by omega) hrec
            simp only [List.length_cons]
            omega

/-- The visits of the record loop start at `pKey`, and from one visit to the
next the loop has read a count byte `n` that is not zero and has moved
forward by `3 + 2 * n`, at least five bytes. -/
theorem walkLoop_visited_chain (memory : Nat → Byte) (pEnd : Nat) :
    ∀ (fuel pKey : Nat) (table : Nat → List Nat) (w : Walk),
      walkLoop memory pEnd fuel pKey table = some w →
      (∃ rest, w.visited = pKey :: rest) ∧
      List.Chain' (fun a b => (memory (a + 2)).val ≠ 0 ∧
        b = a + 3 + 2 * (memory (a + 2)).val ∧ a + 5 ≤ b) w.visited := by
  intro fuel
  induction fuel with
  | zero => intro pKey table w h; simp [walkLoop] at h
  | succ fuel ih =>
    intro pKey table w h
    have hn := nextKey_eq memory pKey
    unfold walkLoop at h
    by_cases hz : nKDefOutputAt memory pKey = 0
    · simp only [hz, if_true, Option.some.injEq] at h
      subst h
      exact ⟨⟨[], rfl⟩, List.chain'_singleton _⟩
    · have hz2 : (memory (pKey + 2)).val ≠ 0 := hz
      simp only [hz, if_false] at h
      by_cases hgt : nextKey memory pKey > pEnd
      · simp only [hgt, if_true, Option.some.injEq] at h
        subst h
        exact ⟨⟨[], rfl⟩, List.chain'_singleton _⟩
      · simp only [hgt, if_false] at h
        by_cases heq : nextKey memory pKey = pEnd
        · simp only [heq, if_true, Option.some.injEq] at h
          subst h
          exact ⟨⟨[], rfl⟩, List.chain'_singleton _⟩
        · simp only [heq, if_false] at h
          cases hrec : walkLoop memory pEnd fuel (nextKey memory pKey)
              (appendItem table (kDefAt memory pKey).nVkKey.val pKey) with
          | none => simp [hrec] at h
          | some w1 =>
            simp only [hrec, Option.some.injEq] at h
            subst h
            obtain ⟨⟨rest, hrest⟩, hchain⟩ := ih _ _ w1 hrec
            refine ⟨⟨w1.visited, rfl⟩, ?_⟩
            show List.Chain' _ (pKey :: w1.visited)
            rw [hrest] at hchain ⊢
            exact List.chain'_cons.mpr ⟨⟨hz2, hn, by omega⟩, hchain⟩

/-- The record loop leaves the same things behind whatever fuel it is given,
as long as the fuel is enough. -/
theorem walkLoop_fuel (memory : Nat → Byte) (pEnd : Nat) :
    ∀ (f1 f2 pKey : Nat) (table : Nat → List Nat) (w1 w2 : Walk),
      walkLoop memory pEnd f1 pKey table = some w1 →
      walkLoop memory pEnd f2 pKey table = some w2 → w1 = w2 := by
  intro f1
  induction f1 with
  | zero => intro f2 pKey table w1 w2 h; simp [walkLoop] at h
  | succ f1 ih =>
    intro f2 pKey table w1 w2 h1 h2
    cases f2 with
    | zero => simp [walkLoop] at h2
    | succ f2 =>
      unfold walkLoop at h1 h2
      by_cases hz : nKDefOutputAt memory pKey = 0
      · simp only [hz, if_true, Option.some.injEq] at h1 h2
        rw [← h1, ← h2]
      · simp only [hz, if_false] at h1 h2
        by_cases hgt : nextKey memory pKey > pEnd
        · simp only [hgt, if_true, Option.some.injEq] at h1 h2
          rw [← h1, ← h2]
        · simp only [hgt, if_false] at h1 h2
          by_cases heq : nextKey memory pKey = pEnd
          · simp only [heq, if_true, Option.some.injEq] at h1 h2
            rw [← h1, ← h2]
          · simp only [heq, if_false] at h1 h2
            cases hr1 : walkLoop memory pEnd f1 (nextKey memory pKey)
                (appendItem table (kDefAt memory pKey).nVkKey.val pKey) with
            | none => simp [hr1] at h1
            | some v1 =>
              cases hr2 : walkLoop memory pEnd f2 (nextKey memory pKey)
                  (appendItem table (kDefAt memory pKey).nVkKey.val pKey) with
              | none => simp [hr2] at h2
              | some v2 =>
                simp only [hr1, hr2, Option.some.injEq] at h1 h2
                have := ih f2 _ _ v1 v2 hr1 hr2
                subst this
                rw [← h1, ← h2]

/-- C20: for every non-empty buffer `b`, the record loop of
`LoadAndCaptureFromFile` comes to an end: every iteration either leaves the
loop or moves the offset forward by `3 + 2 * n >= 5` bytes (`n` the non-zero
count just read), so `ceil(length b / 5)` iterations are enough, the loop
visits at most that many records, and the load returns, with validation
passed or with `INPUT_BAD`. -/
theorem C20_walk_terminates (e : Engine) (os : OsAnswers) (b : List Byte)
    (hd : os.delivers b) (hb : b ≠ []) :
    ∃ out w, LoadAndCaptureFromFile e os = some out ∧ out.walk = some w ∧
      walkLoop (storeBytes e.memory b) b.length ((b.length + 4) / 5) 0
        (clearTable e.g_KeyTranslationTable) = some w ∧
      w.visited.length ≤ (b.length + 4) / 5 ∧
      List.Chain' (fun o o2 => (storeBytes e.memory b (o + 2)).val ≠ 0 ∧
        o2 = o + 3 + 2 * (storeBytes e.memory b (o + 2)).val ∧ o + 5 ≤ o2) w.visited ∧
      (out.status.passedValidation ∨ out.status = HOOK_RESULT.INPUT_BAD) := by
  obtain ⟨w, hw, hload⟩ := load_of_delivers e os b hd hb
  have hpos : 0 < b.length := List.length_pos.mpr hb
  obtain ⟨w2, hw2⟩ := walkLoop_isSome (storeBytes e.memory b) b.length ((b.length + 4) / 5) 0
    (clearTable e.g_KeyTranslationTable) hpos (by omega)
  have heq : w2 = w := walkLoop_fuel _ _ _ _ _ _ w2 w hw2 hw
  subst heq
  have hbound := walkLoop_visited_bound _ _ _ _ _ w2 hpos hw
  have hchain := (walkLoop_visited_chain _ _ _ _ _ w2 hw).2
  have hwalk : (afterWalk (e.loading b) os w2).walk = some w2 := by
    by_cases hx : w2.exit = WalkExit.atEnd
    · exact (afterWalk_atEnd _ os w2 hx).2.1
    · exact (afterWalk_not_atEnd _ os w2 hx).2.1
  refine ⟨_, w2, hload, hwalk, hw2, by omega, hchain, ?_⟩
  by_cases hx : w2.exit = WalkExit.atEnd
  · exact Or.inl (afterWalk_atEnd _ os w2 hx).1
  · exact Or.inr (afterWalk_not_atEnd _ os w2 hx).1

/-- C20, at the file of two records `A` to `B B` and `Alt+A` to `C` (twelve
bytes): three units of fuel are enough and two records are visited. -/
theorem C20_walk_terminates_witness :
    ∃ out w, LoadAndCaptureFromFile (Engine.initial (fun _ => 0))
        (OsAnswers.ofBuffer [65, 0, 2, 66, 0, 66, 0, 65, 1, 1, 67, 0] (some 1)) = some out ∧
      out.walk = some w ∧
      walkLoop (storeBytes (fun _ => 0) [65, 0, 2, 66, 0, 66, 0, 65, 1, 1, 67, 0]) 12 3 0
        (clearTable (fun _ => [])) = some w ∧
      w.visited.length ≤ 3 ∧
      List.Chain' (fun o o2 =>
        (storeBytes (fun _ => 0) [65, 0, 2, 66, 0, 66, 0, 65, 1, 1, 67, 0] (o + 2)).val ≠ 0 ∧
        o2 = o + 3 + 2 *
          (storeBytes (fun _ => 0) [65, 0, 2, 66, 0, 66, 0, 65, 1, 1, 67, 0] (o + 2)).val ∧
        o + 5 ≤ o2) w.visited ∧
      (out.status.passedValidation ∨ out.status = HOOK_RESULT.INPUT_BAD) :=
  C20_walk_terminates (Engine.initial (fun _ => 0))
    (OsAnswers.ofBuffer [65, 0, 2, 66, 0, 66, 0, 65, 1, 1, 67, 0] (some 1))
    [65, 0, 2, 66, 0, 66, 0, 65, 1, 1, 67, 0] (by decide) (by decide)

end KeyCap
